import Mathlib

/-!
Shallow embedding of `rs-unionfind` (`src/unionfind.rs`): a union-find data
structure keyed by arbitrary hashable identifiers, with full path
compression in `find` and union-by-rank (rank = group size) in `union`.

The Rust structure `UnionFind<T>` stores `parents : IndexMap<T, (Rc<T>, Rank)>`.
We model the `IndexMap` as an insertion-ordered association list
`List (T × T × Nat)` (key, parent reference, rank), and `Rc<T>` simply as a
value of type `T` (clone/sharing is irrelevant to the values computed).
Mutation through `RefCell` becomes explicit state passing: each operation
returns its result together with the successor state.
-/

namespace RsUnionFind

variable {T : Type} [DecidableEq T]

/-- An entry stored for a key: the (maybe stale) parent reference and rank. -/
abbrev Entry (T : Type) := T × Nat

/-- The union-find structure: insertion-ordered map from id to entry,
modelling `parents: RefCell<IndexMap<T, (Rc<T>, Rank)>>`. -/
structure UnionFind (T : Type) where
  parents : List (T × Entry T)
deriving DecidableEq

/-- Lookup in the association list, modelling `IndexMap` indexing / `get`. -/
def lookupEntry : List (T × Entry T) → T → Option (Entry T)
  | [], _ => none
  | (k, v) :: rest, key => if k = key then some v else lookupEntry rest key

/-- `IndexMap::contains_key`. -/
def containsKey (ps : List (T × Entry T)) (key : T) : Bool :=
  (lookupEntry ps key).isSome

/-- `IndexMap::insert`: if the key is present its value is updated in place
(the key keeps its position in the order); otherwise the pair is appended. -/
def mapInsert : List (T × Entry T) → T → Entry T → List (T × Entry T)
  | [], key, v => [(key, v)]
  | (k, w) :: rest, key, v =>
    if k = key then (k, v) :: rest else (k, w) :: mapInsert rest key v

/-- `*map.get_mut(key).unwrap() = v`: update the value of a present key in
place. (On an absent key the Rust code would panic; this total model leaves
the list unchanged, and presence at every call site is proved separately.) -/
def setEntry : List (T × Entry T) → T → Entry T → List (T × Entry T)
  | [], _, _ => []
  | (k, w) :: rest, key, v =>
    if k = key then (k, v) :: rest else (k, w) :: setEntry rest key v

/-- The walk loop of `inner_find`: starting at `old`, follow parent
references until a self-referencing entry is reached, collecting the visited
non-root keys in order (`to_update` in the Rust code). Returns the root, the
root's rank, and the collected list. Fuel bounds the number of visited
entries; `none` models the unreachable branches (a missing key — a panic in
Rust — or fuel exhaustion — nontermination in Rust). -/
def findChain (ps : List (T × Entry T)) : Nat → T → Option (T × Nat × List T)
  | 0, _ => none
  | fuel + 1, old =>
    match lookupEntry ps old with
    | none => none
    | some (cur, curRank) =>
      if cur = old then some (old, curRank, [])
      else
        match findChain ps fuel cur with
        | none => none
        | some (root, rootRank, lst) => some (root, rootRank, old :: lst)

/-- The compression loop of `inner_find`: `for u in to_update { ps.insert(u, (root, rank)) }`. -/
def applyUpdates (ps : List (T × Entry T)) (root : T) (rootRank : Nat)
    (toUpdate : List T) : List (T × Entry T) :=
  toUpdate.foldl (fun acc u => mapInsert acc u (root, rootRank)) ps

namespace UnionFind

/-- `UnionFind::new` / `Default::default`. -/
def new : UnionFind T := ⟨[]⟩

/-- `UnionFind::size`. -/
def size (uf : UnionFind T) : Nat := uf.parents.length

/-- The list of inserted identifiers, in insertion order. -/
def keys (uf : UnionFind T) : List T := uf.parents.map Prod.fst

/-- `UnionFind::insert`: no-op when present, otherwise a fresh root entry
`(t, 1)` is appended. -/
def insert (uf : UnionFind T) (t : T) : UnionFind T :=
  if containsKey uf.parents t then uf
  else ⟨mapInsert uf.parents t (t, 1)⟩

/-- `UnionFind::inner_find`: `none` when `current` was never inserted (no
mutation); otherwise walk to the root and rewrite every visited non-root
entry to `(root, root rank)`, returning the root and its rank together with
the successor state. -/
def innerFind (uf : UnionFind T) (current : T) :
    Option (T × Nat) × UnionFind T :=
  if containsKey uf.parents current then
    match findChain uf.parents uf.parents.length current with
    | none => (none, uf)
    | some (root, rootRank, toUpdate) =>
      (some (root, rootRank), ⟨applyUpdates uf.parents root rootRank toUpdate⟩)
  else (none, uf)

/-- `UnionFind::find`: the leader component of `inner_find`. -/
def find (uf : UnionFind T) (current : T) : Option T × UnionFind T :=
  ((innerFind uf current).1.map Prod.fst, (innerFind uf current).2)

/-- `UnionFind::union`: resolve both leaders with the compressing find
(early exit with the state mutated so far when one is missing); if they
coincide return that leader; otherwise swap so the strictly higher-ranked
leader is first, and point both leaders' entries at the winner with the
combined rank. -/
def union (uf : UnionFind T) (x y : T) : Option T × UnionFind T :=
  match innerFind uf x with
  | (none, uf1) => (none, uf1)
  | (some (xr, xRank), uf1) =>
    match innerFind uf1 y with
    | (none, uf2) => (none, uf2)
    | (some (yr, yRank), uf2) =>
      if xr = yr then (some xr, uf2)
      else
        let w := if yRank > xRank then yr else xr
        let l := if yRank > xRank then xr else yr
        match lookupEntry uf2.parents w with
        | none => (none, uf2)
        | some (newXRes, _) =>
          (some w,
            ⟨setEntry (setEntry uf2.parents l (newXRes, xRank + yRank))
              w (newXRes, xRank + yRank)⟩)

end UnionFind

/-- One step of the parent relation: the parent reference stored for `k`. -/
def parentD (ps : List (T × Entry T)) (k : T) : Option T :=
  (lookupEntry ps k).map Prod.fst

/-- The rank stored for `k`. -/
def rankD (ps : List (T × Entry T)) (k : T) : Option Nat :=
  (lookupEntry ps k).map Prod.snd

/-- Iterating the parent relation `n` times from `k`. -/
def iterParent (ps : List (T × Entry T)) : Nat → T → Option T
  | 0, k => some k
  | n + 1, k =>
    match parentD ps k with
    | none => none
    | some p => iterParent ps n p

/-- `k`'s parent chain reaches the self-referencing root `r`. -/
def RootedAt (ps : List (T × Entry T)) (k r : T) : Prop :=
  ∃ n, iterParent ps n k = some r ∧ parentD ps r = some r

/-- Computable root of `k`'s group (the first component of the walk). -/
def rootD (uf : UnionFind T) (k : T) : Option T :=
  (findChain uf.parents uf.parents.length k).map Prod.fst

/-- Number of inserted identifiers whose computed root is `r`. -/
def groupSize (uf : UnionFind T) (r : T) : Nat :=
  (uf.keys.filter (fun k => rootD uf k = some r)).length

/-- Well-formedness: no duplicate keys, every stored parent reference is a
key, and the walk from every key succeeds within `size` steps. All three
components are decidable on concrete states. -/
structure WF (uf : UnionFind T) : Prop where
  nodup : uf.keys.Nodup
  closed : ∀ e ∈ uf.parents, e.2.1 ∈ uf.keys
  rooted : ∀ k ∈ uf.keys,
    (findChain uf.parents uf.parents.length k).isSome = true

/-- Rank monotonicity along stored edges: an entry's rank is at most its
parent's rank. -/
def RankMono (uf : UnionFind T) : Prop :=
  ∀ e ∈ uf.parents, ∀ e' ∈ uf.parents, e.2.1 = e'.1 → e.2.2 ≤ e'.2.2

/-- Every root's rank is the number of elements of its group. -/
def SizeInv (uf : UnionFind T) : Prop :=
  ∀ e ∈ uf.parents, e.2.1 = e.1 → e.2.2 = groupSize uf e.1

/-- The full invariant maintained by all operations. -/
structure Inv (uf : UnionFind T) : Prop where
  wf : WF uf
  rankMono : RankMono uf
  sizeInv : SizeInv uf

/-- States reachable from the empty structure by the public operations. -/
inductive Reachable : UnionFind T → Prop
  | new : Reachable UnionFind.new
  | insertStep {uf : UnionFind T} (t : T) :
      Reachable uf → Reachable (uf.insert t)
  | findStep {uf : UnionFind T} (x : T) :
      Reachable uf → Reachable (uf.find x).2
  | unionStep {uf : UnionFind T} (x y : T) :
      Reachable uf → Reachable (uf.union x y).2

/-! ### Concrete states used to instantiate the theorems -/

/-- The state with identifiers `0, 1, 2, 3` inserted. -/
def ufScenario0 : UnionFind Nat :=
  ((((UnionFind.new.insert 0).insert 1).insert 2).insert 3)

/-- After `union 0 1`. -/
def ufScenario1 : UnionFind Nat := (ufScenario0.union 0 1).2

/-- After `union 2 3`. -/
def ufScenario2 : UnionFind Nat := (ufScenario1.union 2 3).2

/-- The state reached from empty by `insert 0..3; union 0 1; union 2 3; union 0 2`:
`[(0,(0,4)), (1,(0,2)), (2,(0,4)), (3,(2,2))]`, in which the entry of `3`
still points at the stale leader `2`. -/
def ufScenario : UnionFind Nat := (ufScenario2.union 0 2).2

/-! ### Association-list lemmas -/

theorem lookupEntry_isSome_iff {ps : List (T × Entry T)} {k : T} :
    (lookupEntry ps k).isSome = true ↔ k ∈ ps.map Prod.fst := by
  induction ps with
  | nil => simp [lookupEntry]
  | cons e rest ih =>
    obtain ⟨k', v⟩ := e
    by_cases h : k' = k
    · subst h
      simp [lookupEntry]
    · simp [lookupEntry, h, ih, Ne.symm h]

theorem lookupEntry_eq_none_of_not_mem {ps : List (T × Entry T)} {k : T}
    (h : k ∉ ps.map Prod.fst) : lookupEntry ps k = none := by
  cases hl : lookupEntry ps k with
  | none => rfl
  | some v =>
    exact absurd (lookupEntry_isSome_iff.mp (by simp [hl])) h

theorem mem_of_lookupEntry {ps : List (T × Entry T)} {k : T} {v : Entry T}
    (h : lookupEntry ps k = some v) : (k, v) ∈ ps := by
  induction ps with
  | nil => simp [lookupEntry] at h
  | cons e rest ih =>
    obtain ⟨k', v'⟩ := e
    by_cases hk : k' = k
    · subst hk
      simp [lookupEntry] at h
      simp [h]
    · simp [lookupEntry, hk] at h
      simp [ih h]

theorem mem_keys_of_lookupEntry {ps : List (T × Entry T)} {k : T} {v : Entry T}
    (h : lookupEntry ps k = some v) : k ∈ ps.map Prod.fst :=
  lookupEntry_isSome_iff.mp (by simp [h])

theorem lookupEntry_of_mem_nodup {ps : List (T × Entry T)} {k : T} {v : Entry T}
    (hnd : (ps.map Prod.fst).Nodup) (h : (k, v) ∈ ps) :
    lookupEntry ps k = some v := by
  induction ps with
  | nil => simp at h
  | cons e rest ih =>
    obtain ⟨k', v'⟩ := e
    simp only [List.map_cons, List.nodup_cons] at hnd
    rcases List.mem_cons.mp h with h1 | h1
    · obtain ⟨rfl, rfl⟩ := Prod.mk.injEq .. ▸ h1
      simp [lookupEntry]
    · have hk : k' ≠ k := by
        rintro rfl
        exact hnd.1 (List.mem_map.mpr ⟨(k', v), h1, rfl⟩)
      simp [lookupEntry, hk, ih hnd.2 h1]

theorem lookupEntry_mapInsert_self {ps : List (T × Entry T)} {key : T}
    {v : Entry T} : lookupEntry (mapInsert ps key v) key = some v := by
  induction ps with
  | nil => simp [mapInsert, lookupEntry]
  | cons e rest ih =>
    obtain ⟨k', v'⟩ := e
    by_cases h : k' = key <;> simp [mapInsert, lookupEntry, h, ih]

theorem lookupEntry_mapInsert_ne {ps : List (T × Entry T)} {key k : T}
    {v : Entry T} (h : k ≠ key) :
    lookupEntry (mapInsert ps key v) k = lookupEntry ps k := by
  induction ps with
  | nil => simp [mapInsert, lookupEntry, Ne.symm h]
  | cons e rest ih =>
    obtain ⟨k', v'⟩ := e
    by_cases h1 : k' = key
    · subst h1
      simp [mapInsert, lookupEntry, Ne.symm h]
    · by_cases h2 : k' = k <;>
        simp [mapInsert, lookupEntry, h1, h2, h, Ne.symm h, ih]

theorem keys_mapInsert_of_mem {ps : List (T × Entry T)} {key : T} {v : Entry T}
    (h : key ∈ ps.map Prod.fst) :
    (mapInsert ps key v).map Prod.fst = ps.map Prod.fst := by
  induction ps with
  | nil => simp at h
  | cons e rest ih =>
    obtain ⟨k', v'⟩ := e
    by_cases h1 : k' = key
    · simp [mapInsert, h1]
    · simp only [List.map_cons, List.mem_cons] at h
      rcases h with h | h
      · exact absurd h.symm h1
      · simp [mapInsert, h1, ih h]

theorem keys_mapInsert_of_not_mem {ps : List (T × Entry T)} {key : T}
    {v : Entry T} (h : key ∉ ps.map Prod.fst) :
    (mapInsert ps key v).map Prod.fst = ps.map Prod.fst ++ [key] := by
  induction ps with
  | nil => simp [mapInsert]
  | cons e rest ih =>
    obtain ⟨k', v'⟩ := e
    simp only [List.map_cons, List.mem_cons] at h
    push_neg at h
    simp [mapInsert, Ne.symm h.1, ih h.2]

theorem keys_setEntry {ps : List (T × Entry T)} {key : T} {v : Entry T} :
    (setEntry ps key v).map Prod.fst = ps.map Prod.fst := by
  induction ps with
  | nil => simp [setEntry]
  | cons e rest ih =>
    obtain ⟨k', v'⟩ := e
    by_cases h : k' = key <;> simp [setEntry, h, ih]

theorem lookupEntry_setEntry_self {ps : List (T × Entry T)} {key : T}
    {v : Entry T} (h : key ∈ ps.map Prod.fst) :
    lookupEntry (setEntry ps key v) key = some v := by
  induction ps with
  | nil => simp at h
  | cons e rest ih =>
    obtain ⟨k', v'⟩ := e
    by_cases h1 : k' = key
    · simp [setEntry, h1, lookupEntry]
    · simp only [List.map_cons, List.mem_cons] at h
      rcases h with h | h
      · exact absurd h.symm h1
      · simp [setEntry, h1, lookupEntry, ih h]

theorem lookupEntry_setEntry_ne {ps : List (T × Entry T)} {key k : T}
    {v : Entry T} (h : k ≠ key) :
    lookupEntry (setEntry ps key v) k = lookupEntry ps k := by
  induction ps with
  | nil => simp [setEntry]
  | cons e rest ih =>
    obtain ⟨k', v'⟩ := e
    by_cases h1 : k' = key
    · subst h1
      simp [setEntry, lookupEntry, Ne.symm h]
    · by_cases h2 : k' = k <;> simp [setEntry, lookupEntry, h1, h2, h, ih]

theorem lookupEntry_applyUpdates {root : T} {rootRank : Nat} {L : List T}
    {ps : List (T × Entry T)} {k : T} :
    lookupEntry (applyUpdates ps root rootRank L) k =
      if k ∈ L then some (root, rootRank) else lookupEntry ps k := by
  induction L generalizing ps with
  | nil => simp [applyUpdates]
  | cons u L ih =>
    show lookupEntry (applyUpdates (mapInsert ps u (root, rootRank)) root rootRank L) k = _
    rw [ih]
    by_cases hL : k ∈ L
    · simp [hL]
    · by_cases hu : k = u
      · subst hu
        simp [hL, lookupEntry_mapInsert_self]
      · simp [hL, hu, lookupEntry_mapInsert_ne hu]

theorem keys_applyUpdates {root : T} {rootRank : Nat} {L : List T}
    {ps : List (T × Entry T)} (h : ∀ u ∈ L, u ∈ ps.map Prod.fst) :
    (applyUpdates ps root rootRank L).map Prod.fst = ps.map Prod.fst := by
  induction L generalizing ps with
  | nil => simp [applyUpdates]
  | cons u L ih =>
    show (applyUpdates (mapInsert ps u (root, rootRank)) root rootRank L).map Prod.fst = _
    rw [ih, keys_mapInsert_of_mem (h u (by simp))]
    intro v hv
    rw [keys_mapInsert_of_mem (h u (by simp))]
    exact h v (by simp [hv])

/-! ### Parent-iteration lemmas -/

theorem iterParent_add {ps : List (T × Entry T)} {m n : Nat} {k : T} :
    iterParent ps (m + n) k =
      match iterParent ps m k with
      | none => none
      | some v => iterParent ps n v := by
  induction m generalizing k with
  | zero => simp [iterParent]
  | succ m ih =>
    have : m + 1 + n = (m + n) + 1 := by omega
    rw [show m + 1 + n = m + n + 1 from by omega]
    show (match parentD ps k with
      | none => none
      | some p => iterParent ps (m + n) p) = _
    cases hp : parentD ps k with
    | none => simp [iterParent, hp]
    | some p => simp [iterParent, hp, ih]

theorem iterParent_succ_right {ps : List (T × Entry T)} {n : Nat} {k : T} :
    iterParent ps (n + 1) k =
      match iterParent ps n k with
      | none => none
      | some v => parentD ps v := by
  rw [iterParent_add]
  cases iterParent ps n k with
  | none => rfl
  | some v =>
    show iterParent ps 1 v = parentD ps v
    cases hp : parentD ps v <;> simp [iterParent, hp]

theorem iterParent_fix {ps : List (T × Entry T)} {r : T}
    (h : parentD ps r = some r) (n : Nat) : iterParent ps n r = some r := by
  induction n with
  | zero => rfl
  | succ n ih => simp [iterParent, h, ih]

theorem iterParent_isSome_of_le {ps : List (T × Entry T)} {m n : Nat} {k : T}
    {z : T} (h : iterParent ps n k = some z) (hmn : m ≤ n) :
    (iterParent ps m k).isSome = true := by
  rcases Nat.exists_eq_add_of_le hmn with ⟨d, rfl⟩
  rw [iterParent_add] at h
  cases hm : iterParent ps m k with
  | none => rw [hm] at h ; exact absurd h (by simp)
  | some v => simp

theorem rootedAt_unique {ps : List (T × Entry T)} {k r r' : T}
    (h : RootedAt ps k r) (h' : RootedAt ps k r') : r = r' := by
  obtain ⟨n, hn, hr⟩ := h
  obtain ⟨n', hn', hr'⟩ := h'
  rcases Nat.le_total n n' with hle | hle
  · rcases Nat.exists_eq_add_of_le hle with ⟨d, rfl⟩
    rw [iterParent_add, hn] at hn'
    simp [iterParent_fix hr] at hn'
    exact hn'
  · rcases Nat.exists_eq_add_of_le hle with ⟨d, rfl⟩
    rw [iterParent_add, hn'] at hn
    simp [iterParent_fix hr'] at hn
    exact hn.symm

theorem rootedAt_step {ps : List (T × Entry T)} {k p z : T}
    (hp : parentD ps k = some p) (h : RootedAt ps p z) : RootedAt ps k z := by
  obtain ⟨n, hn, hz⟩ := h
  exact ⟨n + 1, by simp [iterParent, hp, hn], hz⟩

theorem rootedAt_self {ps : List (T × Entry T)} {r : T}
    (h : parentD ps r = some r) : RootedAt ps r r :=
  ⟨0, rfl, h⟩

theorem mem_keys_of_parentD {ps : List (T × Entry T)} {k p : T}
    (h : parentD ps k = some p) : k ∈ ps.map Prod.fst := by
  cases hl : lookupEntry ps k with
  | none => rw [parentD, hl] at h ; exact absurd h (by simp)
  | some e => exact mem_keys_of_lookupEntry hl

/-- Monotonicity: a state that preserves all present entries preserves
rooted-ness verbatim. -/
theorem rootedAt_mono {ps ps' : List (T × Entry T)}
    (hpres : ∀ u e, lookupEntry ps u = some e → lookupEntry ps' u = some e)
    {k z : T} (h : RootedAt ps k z) : RootedAt ps' k z := by
  obtain ⟨n, hn, hz⟩ := h
  have hpar : ∀ u p, parentD ps u = some p → parentD ps' u = some p := by
    intro u p hup
    cases hl : lookupEntry ps u with
    | none => rw [parentD, hl] at hup ; exact absurd hup (by simp)
    | some e =>
      rw [parentD, hl] at hup
      rw [parentD, hpres u e hl]
      exact hup
  refine ⟨n, ?_, hpar z z hz⟩
  clear hz
  induction n generalizing k with
  | zero => exact hn
  | succ n ih =>
    rw [iterParent] at hn ⊢
    cases hp : parentD ps k with
    | none => rw [hp] at hn ; exact absurd hn (by simp)
    | some p =>
      rw [hp] at hn
      rw [hpar k p hp]
      exact ih hn

/-! ### `findChain` soundness and completeness -/

/-- Everything the walk guarantees: the returned root is a self-referencing
entry with the returned rank, it is reached from the start in exactly
`L.length` steps, and every collected key is a non-root entry whose chain
also reaches that root. -/
theorem findChain_sound {ps : List (T × Entry T)} {fuel : Nat} {k r : T}
    {rr : Nat} {L : List T}
    (h : findChain ps fuel k = some (r, rr, L)) :
    lookupEntry ps r = some (r, rr) ∧ iterParent ps L.length k = some r ∧
      parentD ps r = some r ∧
      ∀ u ∈ L, RootedAt ps u r ∧
        ∃ p rk, lookupEntry ps u = some (p, rk) ∧ p ≠ u := by
  induction fuel generalizing k L with
  | zero => exact absurd h (by simp [findChain])
  | succ fuel ih =>
    rw [findChain] at h
    split at h
    · exact absurd h (by simp)
    · rename_i e cur curRank hl
      split at h
      · rename_i hck
        subst hck
        obtain ⟨rfl, rfl, rfl⟩ : cur = r ∧ curRank = rr ∧ ([] : List T) = L := by
          simpa using h
        refine ⟨hl, rfl, by simp [parentD, hl], by simp⟩
      · rename_i hck
        split at h
        · exact absurd h (by simp)
        · rename_i t r' rr' L₂ hrec
          obtain ⟨rfl, rfl, rfl⟩ : r' = r ∧ rr' = rr ∧ k :: L₂ = L := by
            simpa using h
          obtain ⟨hroot, hiter, hrfix, hmem⟩ := ih hrec
          have hpk : parentD ps k = some cur := by simp [parentD, hl]
          refine ⟨hroot, ?_, hrfix, ?_⟩
          · simp [iterParent, hpk, hiter]
          · intro u hu
            rcases List.mem_cons.mp hu with rfl | hu
            · exact ⟨rootedAt_step hpk ⟨L₂.length, hiter, hrfix⟩,
                cur, curRank, hl, hck⟩
            · exact hmem u hu

/-- The walk succeeds whenever the chain reaches a root within the fuel. -/
theorem findChain_complete {ps : List (T × Entry T)} {n : Nat} {k r : T}
    (hit : iterParent ps n k = some r) (hr : parentD ps r = some r)
    {fuel : Nat} (hfuel : n < fuel) :
    (findChain ps fuel k).isSome = true := by
  induction n generalizing k fuel with
  | zero =>
    obtain rfl : k = r := by simpa [iterParent] using hit
    obtain ⟨fuel, rfl⟩ : ∃ f, fuel = f + 1 := ⟨fuel - 1, by omega⟩
    cases hl : lookupEntry ps k with
    | none => rw [parentD, hl] at hr ; exact absurd hr (by simp)
    | some e =>
      obtain ⟨p, rk⟩ := e
      obtain rfl : p = k := by
        rw [parentD, hl] at hr
        simpa using hr
      simp [findChain, hl]
  | succ n ih =>
    obtain ⟨fuel, rfl⟩ : ∃ f, fuel = f + 1 := ⟨fuel - 1, by omega⟩
    rw [iterParent] at hit
    split at hit
    · exact absurd hit (by simp)
    · rename_i p hp
      cases hl : lookupEntry ps k with
      | none => rw [parentD, hl] at hp ; exact absurd hp (by simp)
      | some e =>
        obtain ⟨p', rk⟩ := e
        obtain rfl : p = p' := by
          rw [parentD, hl] at hp
          simpa [eq_comm] using hp
        by_cases hpk : p = k
        · rw [hpk] at hl
          simp [findChain, hl, hpk]
        · have hrec := ih hit (show n < fuel from by omega)
          rw [Option.isSome_iff_exists] at hrec
          obtain ⟨⟨r', rr', L₂⟩, hrec⟩ := hrec
          simp [findChain, hl, hpk, hrec]

/-! ### Bounded reach: a chain to the root visits distinct keys -/

/-- If the map is closed under parent references, a key whose chain reaches a
root reaches it in fewer than `ps.length` steps (the minimal chain never
repeats a key). -/
theorem rootedAt_bound {ps : List (T × Entry T)} {k r : T}
    (hclosed : ∀ e ∈ ps, e.2.1 ∈ ps.map Prod.fst)
    (hmem : k ∈ ps.map Prod.fst) (h : RootedAt ps k r) :
    ∃ n, n < ps.length ∧ iterParent ps n k = some r := by
  obtain ⟨n0, hn0, hr⟩ := h
  have hP : ∃ n, iterParent ps n k = some r := ⟨n0, hn0⟩
  refine ⟨Nat.find hP, ?_, Nat.find_spec hP⟩
  set n := Nat.find hP with hn
  have hPn : iterParent ps n k = some r := Nat.find_spec hP
  have hmin : ∀ m, m < n → iterParent ps m k ≠ some r :=
    fun m hm => Nat.find_min hP hm
  have hdef : ∀ i, i ≤ n → iterParent ps i k = some ((iterParent ps i k).getD r) := by
    intro i hi
    have := iterParent_isSome_of_le hPn hi
    rw [Option.isSome_iff_exists] at this
    obtain ⟨v, hv⟩ := this
    simp [hv]
  have hinj : Set.InjOn (fun i => (iterParent ps i k).getD r)
      ↑(Finset.range (n + 1)) := by
    have key : ∀ i j, i < j → j ≤ n →
        (iterParent ps i k).getD r ≠ (iterParent ps j k).getD r := by
      intro i j hij hj heq
      have hi : iterParent ps i k = some ((iterParent ps j k).getD r) := by
        rw [← heq]
        exact hdef i (by omega)
      have hj' : iterParent ps j k = some ((iterParent ps j k).getD r) :=
        hdef j hj
      have hsplit : iterParent ps (j + (n - j)) k = some r := by
        rw [show j + (n - j) = n from by omega]
        exact hPn
      rw [iterParent_add, hj'] at hsplit
      have hshort : iterParent ps (i + (n - j)) k = some r := by
        rw [iterParent_add, hi]
        exact hsplit
      exact hmin (i + (n - j)) (by omega) hshort
    intro i hi j hj heq
    simp only [Finset.coe_range, Set.mem_Iio] at hi hj
    rcases Nat.lt_trichotomy i j with hlt | heq' | hlt
    · exact absurd heq (key i j hlt (by omega))
    · exact heq'
    · exact absurd heq.symm (key j i hlt (by omega))
  have hmemAll : ∀ i, i ≤ n → (iterParent ps i k).getD r ∈ ps.map Prod.fst := by
    intro i
    induction i with
    | zero => intro _ ; simpa [iterParent] using hmem
    | succ i ih =>
      intro hi
      have hi' : i ≤ n := by omega
      have h1 : iterParent ps i k = some ((iterParent ps i k).getD r) :=
        hdef i hi'
      have h2 : iterParent ps (i + 1) k =
          some ((iterParent ps (i + 1) k).getD r) := hdef (i + 1) hi
      generalize hw : (iterParent ps (i + 1) k).getD r = w at h2 ⊢
      rw [iterParent_succ_right, h1] at h2
      have hstep : parentD ps ((iterParent ps i k).getD r) = some w := h2
      cases hl : lookupEntry ps ((iterParent ps i k).getD r) with
      | none => rw [parentD, hl] at hstep ; exact absurd hstep (by simp)
      | some e =>
        rw [parentD, hl] at hstep
        have he : e.1 = w := by simpa using hstep
        have := hclosed (_, e) (mem_of_lookupEntry hl)
        rw [he] at this
        exact this
  have hcard : n + 1 ≤ ps.length := by
    have h1 : ((Finset.range (n + 1)).image
        (fun i => (iterParent ps i k).getD r)).card = n + 1 := by
      rw [Finset.card_image_of_injOn hinj, Finset.card_range]
    have h2 : ((Finset.range (n + 1)).image
        (fun i => (iterParent ps i k).getD r)) ⊆
        (ps.map Prod.fst).toFinset := by
      intro x hx
      rw [Finset.mem_image] at hx
      obtain ⟨i, hi, rfl⟩ := hx
      rw [Finset.mem_range] at hi
      exact List.mem_toFinset.mpr (hmemAll i (by omega))
    calc n + 1 = _ := h1.symm
      _ ≤ (ps.map Prod.fst).toFinset.card := Finset.card_le_card h2
      _ ≤ (ps.map Prod.fst).length := List.toFinset_card_le _
      _ = ps.length := List.length_map _ _
  omega

theorem findChain_not_mem {ps : List (T × Entry T)} {k : T} {fuel : Nat}
    (h : k ∉ ps.map Prod.fst) : findChain ps fuel k = none := by
  cases fuel with
  | zero => rfl
  | succ fuel => simp [findChain, lookupEntry_eq_none_of_not_mem h]

/-! ### `rootD` bridge lemmas -/

theorem rootD_sound {uf : UnionFind T} {k r : T} (h : rootD uf k = some r) :
    RootedAt uf.parents k r := by
  rw [rootD, Option.map_eq_some'] at h
  obtain ⟨⟨r', rr, L⟩, hfc, hr⟩ := h
  obtain rfl : r' = r := hr
  obtain ⟨_, hiter, hfix, _⟩ := findChain_sound hfc
  exact ⟨L.length, hiter, hfix⟩

theorem rootD_not_mem {uf : UnionFind T} {k : T} (h : k ∉ uf.keys) :
    rootD uf k = none := by
  rw [rootD, findChain_not_mem h]
  rfl

theorem rootD_isSome_of_mem {uf : UnionFind T} (hwf : WF uf) {k : T}
    (h : k ∈ uf.keys) : (rootD uf k).isSome = true := by
  have hfc := hwf.rooted k h
  rw [rootD]
  cases hc : findChain uf.parents uf.parents.length k with
  | none => rw [hc] at hfc ; exact absurd hfc (by simp)
  | some t => simp

theorem rootD_eq_of_rootedAt {uf : UnionFind T} (hwf : WF uf) {k r : T}
    (hk : k ∈ uf.keys) (h : RootedAt uf.parents k r) : rootD uf k = some r := by
  have hs := rootD_isSome_of_mem hwf hk
  rw [Option.isSome_iff_exists] at hs
  obtain ⟨r', hr'⟩ := hs
  rw [hr']
  rw [rootedAt_unique (rootD_sound hr') h]

/-- Rebuild `WF` from semantic rooted-ness of every key. -/
theorem wf_of_sem {uf : UnionFind T} (hnd : uf.keys.Nodup)
    (hclosed : ∀ e ∈ uf.parents, e.2.1 ∈ uf.keys)
    (hroot : ∀ k ∈ uf.keys, ∃ r, RootedAt uf.parents k r) : WF uf := by
  refine ⟨hnd, hclosed, ?_⟩
  intro k hk
  obtain ⟨r, hr⟩ := hroot k hk
  obtain ⟨n, hn, hit⟩ := rootedAt_bound hclosed hk hr
  exact findChain_complete hit hr.choose_spec.2 hn

theorem wf_rootedAt {uf : UnionFind T} (hwf : WF uf) {k : T}
    (h : k ∈ uf.keys) : ∃ r, RootedAt uf.parents k r := by
  have hs := rootD_isSome_of_mem hwf h
  rw [Option.isSome_iff_exists] at hs
  obtain ⟨r, hr⟩ := hs
  exact ⟨r, rootD_sound hr⟩

/-! ### Chain-unfolding helpers -/

theorem rootedAt_unfold {ps : List (T × Entry T)} {j z p : T} {n : Nat}
    (hj : iterParent ps n j = some z) (hz : parentD ps z = some z)
    (hp : parentD ps j = some p) (hpj : p ≠ j) :
    ∃ m, m < n ∧ iterParent ps m p = some z := by
  cases n with
  | zero =>
    obtain rfl : j = z := by simpa [iterParent] using hj
    rw [hp] at hz
    exact absurd (Option.some.inj hz) hpj
  | succ n =>
    rw [iterParent, hp] at hj
    exact ⟨n, by omega, hj⟩

theorem rootedAt_no_parent {ps : List (T × Entry T)} {j z : T} {n : Nat}
    (hj : iterParent ps n j = some z) (hz : parentD ps z = some z)
    (hp : parentD ps j = none) : False := by
  cases n with
  | zero =>
    obtain rfl : j = z := by simpa [iterParent] using hj
    rw [hp] at hz
    exact absurd hz (by simp)
  | succ n =>
    rw [iterParent, hp] at hj
    exact absurd hj (by simp)

theorem rootedAt_root_eq {ps : List (T × Entry T)} {j z : T}
    (h : RootedAt ps j z) (hj : parentD ps j = some j) : z = j :=
  rootedAt_unique h (rootedAt_self hj)

/-! ### Path compression preserves the forest -/

/-- After compressing the chain found by `findChain`, every rooted-ness fact
is preserved verbatim: the compressed entries point directly at their old
root, everything else is untouched. -/
theorem rootedAt_compress {ps : List (T × Entry T)} {fuel : Nat} {k0 r : T}
    {rr : Nat} {L : List T}
    (hfc : findChain ps fuel k0 = some (r, rr, L)) {j z : T}
    (h : RootedAt ps j z) : RootedAt (applyUpdates ps r rr L) j z := by
  obtain ⟨hroot, _, hrfix, hmem⟩ := findChain_sound hfc
  have hrL : r ∉ L := by
    intro hr
    obtain ⟨_, p, rk, hlk, hpne⟩ := hmem r hr
    rw [hroot] at hlk
    exact hpne (And.left (by simpa using hlk.symm))
  have hparNotL : ∀ u, u ∉ L →
      parentD (applyUpdates ps r rr L) u = parentD ps u := by
    intro u hu
    rw [parentD, lookupEntry_applyUpdates, if_neg hu, parentD]
  have hparL : ∀ u, u ∈ L →
      parentD (applyUpdates ps r rr L) u = some r := by
    intro u hu
    rw [parentD, lookupEntry_applyUpdates, if_pos hu]
    rfl
  have hrootFix : parentD (applyUpdates ps r rr L) r = some r := by
    rw [hparNotL r hrL, hrfix]
  obtain ⟨n, hn, hz⟩ := h
  clear hfc
  induction n using Nat.strong_induction_on generalizing j with
  | _ n ih =>
    by_cases hjL : j ∈ L
    · obtain rfl : z = r := rootedAt_unique ⟨n, hn, hz⟩ (hmem j hjL).1
      exact rootedAt_step (hparL j hjL) (rootedAt_self hrootFix)
    · cases hp : parentD ps j with
      | none => exact absurd (rootedAt_no_parent hn hz hp) (by simp)
      | some p =>
        by_cases hpj : p = j
        · rw [hpj] at hp
          obtain rfl : z = j := rootedAt_root_eq ⟨n, hn, hz⟩ hp
          exact rootedAt_self (by rw [hparNotL z hjL, hp])
        · obtain ⟨m, hm, hmp⟩ := rootedAt_unfold hn hz hp hpj
          exact rootedAt_step (by rw [hparNotL j hjL, hp]) (ih m hm hmp)

/-! ### The merge step preserves and merges the forest -/

/-- After `union`'s merge writes (`l ↦ (w, s)`, `w ↦ (w, s)` where `w`, `l`
are distinct roots), the root of every chain is unchanged except that chains
rooted at `l` are now rooted at `w`. -/
theorem rootedAt_merge {ps : List (T × Entry T)} {w l : T} {rkw s : Nat}
    (hw : lookupEntry ps w = some (w, rkw)) (hl : parentD ps l = some l)
    (hwl : w ≠ l) (hlmem : l ∈ ps.map Prod.fst) {j z : T}
    (h : RootedAt ps j z) :
    RootedAt (setEntry (setEntry ps l (w, s)) w (w, s)) j
      (if z = l then w else z) := by
  have hwmem : w ∈ ps.map Prod.fst := mem_keys_of_lookupEntry hw
  have hlook : ∀ u, lookupEntry (setEntry (setEntry ps l (w, s)) w (w, s)) u =
      if u = w then some (w, s) else if u = l then some (w, s)
      else lookupEntry ps u := by
    intro u
    by_cases huw : u = w
    · subst huw
      rw [if_pos rfl]
      exact lookupEntry_setEntry_self (by rw [keys_setEntry] ; exact hwmem)
    · rw [if_neg huw, lookupEntry_setEntry_ne huw]
      by_cases hul : u = l
      · subst hul
        rw [if_pos rfl]
        exact lookupEntry_setEntry_self hlmem
      · rw [if_neg hul, lookupEntry_setEntry_ne hul]
  have hparW : parentD (setEntry (setEntry ps l (w, s)) w (w, s)) w = some w := by
    rw [parentD, hlook w, if_pos rfl]
    rfl
  have hparL : parentD (setEntry (setEntry ps l (w, s)) w (w, s)) l = some w := by
    rw [parentD, hlook l, if_neg (Ne.symm hwl), if_pos rfl]
    rfl
  have hparElse : ∀ u, u ≠ w → u ≠ l →
      parentD (setEntry (setEntry ps l (w, s)) w (w, s)) u = parentD ps u := by
    intro u h1 h2
    rw [parentD, hlook u, if_neg h1, if_neg h2, parentD]
  obtain ⟨n, hn, hz⟩ := h
  induction n using Nat.strong_induction_on generalizing j with
  | _ n ih =>
    by_cases hjw : j = w
    · subst hjw
      obtain rfl : z = j := rootedAt_root_eq ⟨n, hn, hz⟩ (by rw [parentD, hw] ; rfl)
      rw [if_neg hwl]
      exact rootedAt_self hparW
    · by_cases hjl : j = l
      · subst hjl
        obtain rfl : z = j := rootedAt_root_eq ⟨n, hn, hz⟩ hl
        rw [if_pos rfl]
        exact rootedAt_step hparL (rootedAt_self hparW)
      · cases hp : parentD ps j with
        | none => exact absurd (rootedAt_no_parent hn hz hp) (by simp)
        | some p =>
          by_cases hpj : p = j
          · rw [hpj] at hp
            obtain rfl : z = j := rootedAt_root_eq ⟨n, hn, hz⟩ hp
            rw [if_neg hjl]
            exact rootedAt_self (by rw [hparElse z hjw hjl, hp])
          · obtain ⟨m, hm, hmp⟩ := rootedAt_unfold hn hz hp hpj
            exact rootedAt_step (by rw [hparElse j hjw hjl, hp]) (ih m hm hmp)

/-! ### `innerFind` characterization -/

theorem containsKey_iff {ps : List (T × Entry T)} {k : T} :
    containsKey ps k = true ↔ k ∈ ps.map Prod.fst := by
  rw [containsKey]
  exact lookupEntry_isSome_iff

theorem innerFind_not_mem {uf : UnionFind T} {k : T} (h : k ∉ uf.keys) :
    uf.innerFind k = (none, uf) := by
  rw [UnionFind.innerFind, if_neg (fun hc => h (containsKey_iff.mp hc))]

theorem innerFind_spec {uf : UnionFind T} (hwf : WF uf) {k : T}
    (hk : k ∈ uf.keys) :
    ∃ r rr L, findChain uf.parents uf.parents.length k = some (r, rr, L) ∧
      uf.innerFind k = (some (r, rr), ⟨applyUpdates uf.parents r rr L⟩) := by
  have hs := hwf.rooted k hk
  rw [Option.isSome_iff_exists] at hs
  obtain ⟨⟨r, rr, L⟩, hfc⟩ := hs
  refine ⟨r, rr, L, hfc, ?_⟩
  rw [UnionFind.innerFind, if_pos (containsKey_iff.mpr hk), hfc]

theorem chain_mem_keys {ps : List (T × Entry T)} {fuel : Nat} {k r : T}
    {rr : Nat} {L : List T} (hfc : findChain ps fuel k = some (r, rr, L)) :
    ∀ u ∈ L, u ∈ ps.map Prod.fst := by
  intro u hu
  obtain ⟨_, p, rk, hlk, _⟩ := (findChain_sound hfc).2.2.2 u hu
  exact mem_keys_of_lookupEntry hlk

theorem innerFind_keys {uf : UnionFind T} (k : T) :
    (uf.innerFind k).2.keys = uf.keys := by
  rw [UnionFind.innerFind]
  by_cases hk : containsKey uf.parents k = true
  · rw [if_pos hk]
    cases hfc : findChain uf.parents uf.parents.length k with
    | none => rfl
    | some t =>
      obtain ⟨r, rr, L⟩ := t
      exact keys_applyUpdates (chain_mem_keys hfc)
  · rw [if_neg hk]

theorem innerFind_wf {uf : UnionFind T} (hwf : WF uf) (k : T) :
    WF (uf.innerFind k).2 := by
  by_cases hk : k ∈ uf.keys
  · obtain ⟨r, rr, L, hfc, heq⟩ := innerFind_spec hwf hk
    rw [heq]
    obtain ⟨hroot, _, hrfix, hmem⟩ := findChain_sound hfc
    have hkeys : (applyUpdates uf.parents r rr L).map Prod.fst =
        uf.parents.map Prod.fst := keys_applyUpdates (chain_mem_keys hfc)
    refine wf_of_sem ?_ ?_ ?_
    · show (applyUpdates uf.parents r rr L).map Prod.fst |>.Nodup
      rw [hkeys]
      exact hwf.nodup
    · intro e he
      show e.2.1 ∈ (applyUpdates uf.parents r rr L).map Prod.fst
      rw [hkeys]
      have hnd : ((applyUpdates uf.parents r rr L).map Prod.fst).Nodup := by
        rw [hkeys] ; exact hwf.nodup
      have hl := lookupEntry_of_mem_nodup hnd he
      rw [lookupEntry_applyUpdates] at hl
      by_cases hL : e.1 ∈ L
      · rw [if_pos hL] at hl
        have : e.2.1 = r := by
          have := congrArg (Option.map Prod.fst) hl.symm
          simpa using this
        rw [this]
        exact mem_keys_of_lookupEntry hroot
      · rw [if_neg hL] at hl
        exact hwf.closed (e.1, e.2) (mem_of_lookupEntry hl)
    · intro j hj
      show ∃ z, RootedAt (applyUpdates uf.parents r rr L) j z
      have hj' : j ∈ uf.keys := by
        have : (UnionFind.mk (applyUpdates uf.parents r rr L) :
            UnionFind T).keys = uf.keys := hkeys
        rw [← this]
        exact hj
      obtain ⟨z, hz⟩ := wf_rootedAt hwf hj'
      exact ⟨z, rootedAt_compress hfc hz⟩
  · rw [innerFind_not_mem hk]
    exact hwf

theorem innerFind_rootD {uf : UnionFind T} (hwf : WF uf) (k j : T) :
    rootD (uf.innerFind k).2 j = rootD uf j := by
  by_cases hj : j ∈ uf.keys
  · obtain ⟨z, hz⟩ := wf_rootedAt hwf hj
    have h1 : rootD uf j = some z := rootD_eq_of_rootedAt hwf hj hz
    rw [h1]
    refine rootD_eq_of_rootedAt (innerFind_wf hwf k) ?_ ?_
    · rw [innerFind_keys]
      exact hj
    · by_cases hk : k ∈ uf.keys
      · obtain ⟨r, rr, L, hfc, heq⟩ := innerFind_spec hwf hk
        rw [heq]
        exact rootedAt_compress hfc hz
      · rw [innerFind_not_mem hk]
        exact hz
  · rw [rootD_not_mem hj, rootD_not_mem (fun h => hj (innerFind_keys k ▸ h))]

theorem innerFind_fst {uf : UnionFind T} (hwf : WF uf) {k : T}
    (hk : k ∈ uf.keys) :
    ∃ r rr, (uf.innerFind k).1 = some (r, rr) ∧ rootD uf k = some r ∧
      lookupEntry uf.parents r = some (r, rr) := by
  obtain ⟨r, rr, L, hfc, heq⟩ := innerFind_spec hwf hk
  refine ⟨r, rr, by rw [heq], ?_, (findChain_sound hfc).1⟩
  rw [rootD, hfc]
  rfl

/-- A self-referencing (root) entry is untouched by the compression a find
performs. -/
theorem innerFind_lookup_root {uf : UnionFind T} {z : T}
    (hz : parentD uf.parents z = some z) (k : T) :
    lookupEntry (uf.innerFind k).2.parents z = lookupEntry uf.parents z := by
  rw [UnionFind.innerFind]
  by_cases hk : containsKey uf.parents k = true
  · rw [if_pos hk]
    cases hfc : findChain uf.parents uf.parents.length k with
    | none => rfl
    | some t =>
      obtain ⟨r, rr, L⟩ := t
      show lookupEntry (applyUpdates uf.parents r rr L) z = _
      rw [lookupEntry_applyUpdates]
      have hzL : z ∉ L := by
        intro hmemz
        obtain ⟨_, p, rk, hlk, hpne⟩ := (findChain_sound hfc).2.2.2 z hmemz
        rw [parentD, hlk] at hz
        exact hpne (by simpa using hz)
      rw [if_neg hzL]
  · rw [if_neg hk]

/-! ### `union` characterization -/

theorem lookup_merge {ps : List (T × Entry T)} {w l : T}
    (hwmem : w ∈ ps.map Prod.fst) (hlmem : l ∈ ps.map Prod.fst)
    (hwl : w ≠ l) (s : Nat) (u : T) :
    lookupEntry (setEntry (setEntry ps l (w, s)) w (w, s)) u =
      if u = w then some (w, s)
      else if u = l then some (w, s)
      else lookupEntry ps u := by
  by_cases huw : u = w
  · subst huw
    rw [if_pos rfl]
    exact lookupEntry_setEntry_self (by rw [keys_setEntry] ; exact hwmem)
  · rw [if_neg huw, lookupEntry_setEntry_ne huw]
    by_cases hul : u = l
    · subst hul
      rw [if_pos rfl]
      exact lookupEntry_setEntry_self hlmem
    · rw [if_neg hul, lookupEntry_setEntry_ne hul]

theorem union_none_left {uf uf1 : UnionFind T} {x y : T}
    (h1 : uf.innerFind x = (none, uf1)) : uf.union x y = (none, uf1) := by
  rw [UnionFind.union, h1]

theorem union_some_left {uf uf1 : UnionFind T} {x y xr : T} {xRank : Nat}
    (h1 : uf.innerFind x = (some (xr, xRank), uf1)) :
    uf.union x y =
      match uf1.innerFind y with
      | (none, uf2) => (none, uf2)
      | (some (yr, yRank), uf2) =>
        if xr = yr then (some xr, uf2)
        else
          match lookupEntry uf2.parents (if yRank > xRank then yr else xr) with
          | none => (none, uf2)
          | some (newXRes, _) =>
            (some (if yRank > xRank then yr else xr),
              ⟨setEntry (setEntry uf2.parents
                  (if yRank > xRank then xr else yr) (newXRes, xRank + yRank))
                (if yRank > xRank then yr else xr) (newXRes, xRank + yRank)⟩) := by
  rw [UnionFind.union, h1]

theorem union_some_some {uf uf1 uf2 : UnionFind T} {x y xr yr : T}
    {xRank yRank : Nat} (h1 : uf.innerFind x = (some (xr, xRank), uf1))
    (h2 : uf1.innerFind y = (some (yr, yRank), uf2)) :
    uf.union x y =
      (if xr = yr then (some xr, uf2)
       else
         match lookupEntry uf2.parents (if yRank > xRank then yr else xr) with
         | none => (none, uf2)
         | some (newXRes, _) =>
           (some (if yRank > xRank then yr else xr),
             ⟨setEntry (setEntry uf2.parents
                 (if yRank > xRank then xr else yr) (newXRes, xRank + yRank))
               (if yRank > xRank then yr else xr) (newXRes, xRank + yRank)⟩)) := by
  rw [union_some_left h1, h2]

/-- Complete case analysis of `union` on a well-formed state. -/
theorem union_cases {uf : UnionFind T} (hwf : WF uf) (x y : T) :
    (x ∉ uf.keys ∧ uf.union x y = (none, uf)) ∨
    (x ∈ uf.keys ∧ y ∉ uf.keys ∧
      uf.union x y = (none, (uf.innerFind x).2)) ∨
    (∃ rx ry rkx rky, x ∈ uf.keys ∧ y ∈ uf.keys ∧
      rootD uf x = some rx ∧ rootD uf y = some ry ∧
      lookupEntry uf.parents rx = some (rx, rkx) ∧
      lookupEntry uf.parents ry = some (ry, rky) ∧
      ((rx = ry ∧
        uf.union x y = (some rx, ((uf.innerFind x).2.innerFind y).2)) ∨
       (rx ≠ ry ∧
        uf.union x y = (some (if rky > rkx then ry else rx),
          ⟨setEntry (setEntry ((uf.innerFind x).2.innerFind y).2.parents
              (if rky > rkx then rx else ry)
              ((if rky > rkx then ry else rx), rkx + rky))
            (if rky > rkx then ry else rx)
            ((if rky > rkx then ry else rx), rkx + rky)⟩)))) := by
  by_cases hx : x ∈ uf.keys
  swap
  · refine Or.inl ⟨hx, ?_⟩
    exact union_none_left (innerFind_not_mem hx)
  by_cases hy : y ∈ uf.keys
  swap
  · refine Or.inr (Or.inl ⟨hx, hy, ?_⟩)
    obtain ⟨rx, rkx, hfstx, _, _⟩ := innerFind_fst hwf hx
    have hpair1 : uf.innerFind x = (some (rx, rkx), (uf.innerFind x).2) := by
      rw [← hfstx]
    have hy1 : y ∉ (uf.innerFind x).2.keys := by
      rw [innerFind_keys]
      exact hy
    rw [union_some_left hpair1, innerFind_not_mem hy1]
  refine Or.inr (Or.inr ?_)
  obtain ⟨rx, rkx, hfstx, hrx, hlkx⟩ := innerFind_fst hwf hx
  have hwf1 : WF (uf.innerFind x).2 := innerFind_wf hwf x
  have hy1 : y ∈ (uf.innerFind x).2.keys := by rw [innerFind_keys] ; exact hy
  obtain ⟨ry, rky, hfsty, hry1, hlky1⟩ := innerFind_fst hwf1 hy1
  have hry : rootD uf y = some ry := by rw [← innerFind_rootD hwf x y] ; exact hry1
  have hryroot : parentD uf.parents ry = some ry :=
    (rootD_sound hry).choose_spec.2
  have hlky : lookupEntry uf.parents ry = some (ry, rky) := by
    rw [← innerFind_lookup_root hryroot x]
    exact hlky1
  have hrxroot : parentD uf.parents rx = some rx := by
    rw [parentD, hlkx]
    rfl
  refine ⟨rx, ry, rkx, rky, hx, hy, hrx, hry, hlkx, hlky, ?_⟩
  have hpair1 : uf.innerFind x = (some (rx, rkx), (uf.innerFind x).2) := by
    rw [← hfstx]
  have hpair2 : (uf.innerFind x).2.innerFind y =
      (some (ry, rky), ((uf.innerFind x).2.innerFind y).2) := by
    rw [← hfsty]
  by_cases hrxy : rx = ry
  · refine Or.inl ⟨hrxy, ?_⟩
    rw [union_some_some hpair1 hpair2, if_pos hrxy]
  · refine Or.inr ⟨hrxy, ?_⟩
    -- root entries survive both compressions
    have hrxroot1 : parentD (uf.innerFind x).2.parents rx = some rx := by
      rw [parentD, innerFind_lookup_root hrxroot x, hlkx]
      rfl
    have hlk2x : lookupEntry ((uf.innerFind x).2.innerFind y).2.parents rx =
        some (rx, rkx) := by
      rw [innerFind_lookup_root hrxroot1 y, innerFind_lookup_root hrxroot x]
      exact hlkx
    have hlk2y : lookupEntry ((uf.innerFind x).2.innerFind y).2.parents ry =
        some (ry, rky) := by
      have hryroot1 : parentD (uf.innerFind x).2.parents ry = some ry := by
        rw [parentD, hlky1]
        rfl
      rw [innerFind_lookup_root hryroot1 y]
      exact hlky1
    rw [union_some_some hpair1 hpair2, if_neg hrxy]
    by_cases hcmp : rky > rkx
    · rw [if_pos hcmp, hlk2y]
    · rw [if_neg hcmp, hlk2x]

omit [DecidableEq T] in
theorem keys_def (uf : UnionFind T) : uf.keys = uf.parents.map Prod.fst := rfl

/-- Everything `union`'s merge write guarantees about the successor state:
keys unchanged, well-formedness, the root mapping (`l`-rooted chains are now
`w`-rooted), and the three lookup equations. -/
theorem merge_state {uf2 : UnionFind T} (hwf2 : WF uf2) {w l : T}
    {rkw rkl : Nat} (s : Nat)
    (hlw : lookupEntry uf2.parents w = some (w, rkw))
    (hll : lookupEntry uf2.parents l = some (l, rkl)) (hwl : w ≠ l) :
    (UnionFind.mk (setEntry (setEntry uf2.parents l (w, s)) w (w, s))).keys =
        uf2.keys ∧
      WF (UnionFind.mk (setEntry (setEntry uf2.parents l (w, s)) w (w, s))) ∧
      (∀ j, rootD
          (UnionFind.mk (setEntry (setEntry uf2.parents l (w, s)) w (w, s))) j =
        (rootD uf2 j).map (fun z => if z = l then w else z)) ∧
      (∀ u, lookupEntry
          (setEntry (setEntry uf2.parents l (w, s)) w (w, s)) u =
        if u = w then some (w, s)
        else if u = l then some (w, s)
        else lookupEntry uf2.parents u) := by
  have hwmem : w ∈ uf2.parents.map Prod.fst := mem_keys_of_lookupEntry hlw
  have hlmem : l ∈ uf2.parents.map Prod.fst := mem_keys_of_lookupEntry hll
  have hlroot : parentD uf2.parents l = some l := by rw [parentD, hll] ; rfl
  have hkeys : (setEntry (setEntry uf2.parents l (w, s)) w (w, s)).map
      Prod.fst = uf2.parents.map Prod.fst := by
    rw [keys_setEntry, keys_setEntry]
  have hlook := fun u => lookup_merge hwmem hlmem hwl s u
  have hpres : ∀ j z, RootedAt uf2.parents j z →
      RootedAt (setEntry (setEntry uf2.parents l (w, s)) w (w, s)) j
        (if z = l then w else z) :=
    fun j z h => rootedAt_merge hlw hlroot hwl hlmem h
  have hwf' : WF (UnionFind.mk
      (setEntry (setEntry uf2.parents l (w, s)) w (w, s))) := by
    refine wf_of_sem ?_ ?_ ?_
    · show (setEntry (setEntry uf2.parents l (w, s)) w (w, s)).map
        Prod.fst |>.Nodup
      rw [hkeys]
      exact hwf2.nodup
    · intro e he
      show e.2.1 ∈ (setEntry (setEntry uf2.parents l (w, s)) w (w, s)).map
        Prod.fst
      rw [hkeys]
      have hnd : ((setEntry (setEntry uf2.parents l (w, s)) w (w, s)).map
          Prod.fst).Nodup := by
        rw [hkeys] ; exact hwf2.nodup
      have hl2 := lookupEntry_of_mem_nodup hnd he
      rw [hlook e.1] at hl2
      by_cases h1 : e.1 = w
      · rw [if_pos h1] at hl2
        have : e.2.1 = w := by
          have := congrArg (Option.map Prod.fst) hl2.symm
          simpa using this
        rw [this]
        exact hwmem
      · rw [if_neg h1] at hl2
        by_cases h2 : e.1 = l
        · rw [if_pos h2] at hl2
          have : e.2.1 = w := by
            have := congrArg (Option.map Prod.fst) hl2.symm
            simpa using this
          rw [this]
          exact hwmem
        · rw [if_neg h2] at hl2
          exact hwf2.closed (e.1, e.2) (mem_of_lookupEntry hl2)
    · intro j hj
      have hj2 : j ∈ uf2.keys := by
        rw [keys_def] at hj ⊢
        rw [← hkeys]
        exact hj
      obtain ⟨z, hz⟩ := wf_rootedAt hwf2 hj2
      exact ⟨_, hpres j z hz⟩
  refine ⟨by rw [keys_def, keys_def] ; exact hkeys, hwf', ?_, hlook⟩
  intro j
  by_cases hj : j ∈ uf2.keys
  · have hs := rootD_isSome_of_mem hwf2 hj
    rw [Option.isSome_iff_exists] at hs
    obtain ⟨z, hz⟩ := hs
    rw [hz]
    have hj' : j ∈ (UnionFind.mk
        (setEntry (setEntry uf2.parents l (w, s)) w (w, s))).keys := by
      rw [keys_def, hkeys, ← keys_def]
      exact hj
    exact rootD_eq_of_rootedAt hwf' hj' (hpres j z (rootD_sound hz))
  · have hj' : j ∉ (UnionFind.mk
        (setEntry (setEntry uf2.parents l (w, s)) w (w, s))).keys := by
      rw [keys_def, hkeys, ← keys_def]
      exact hj
    rw [rootD_not_mem hj, rootD_not_mem hj']
    rfl

theorem union_keys_wf {uf : UnionFind T} (hwf : WF uf) (x y : T) :
    (uf.union x y).2.keys = uf.keys ∧ WF (uf.union x y).2 := by
  rcases union_cases hwf x y with ⟨hx, heq⟩ | ⟨hx, hy, heq⟩ |
    ⟨rx, ry, rkx, rky, hx, hy, hrx, hry, hlkx, hlky, hbr⟩
  · rw [heq]
    exact ⟨rfl, hwf⟩
  · rw [heq]
    exact ⟨innerFind_keys x, innerFind_wf hwf x⟩
  · have hwf1 : WF (uf.innerFind x).2 := innerFind_wf hwf x
    have hwf2 : WF ((uf.innerFind x).2.innerFind y).2 := innerFind_wf hwf1 y
    have hkeys2 : ((uf.innerFind x).2.innerFind y).2.keys = uf.keys := by
      rw [innerFind_keys, innerFind_keys]
    rcases hbr with ⟨hrxy, heq⟩ | ⟨hrxy, heq⟩
    · rw [heq]
      exact ⟨hkeys2, hwf2⟩
    · have hrxroot : parentD uf.parents rx = some rx := by
        rw [parentD, hlkx] ; rfl
      have hryroot : parentD uf.parents ry = some ry := by
        rw [parentD, hlky] ; rfl
      have hrxroot1 : parentD (uf.innerFind x).2.parents rx = some rx := by
        rw [parentD, innerFind_lookup_root hrxroot x, hlkx] ; rfl
      have hryroot1 : parentD (uf.innerFind x).2.parents ry = some ry := by
        rw [parentD, innerFind_lookup_root hryroot x, hlky] ; rfl
      have hlk2x : lookupEntry ((uf.innerFind x).2.innerFind y).2.parents rx =
          some (rx, rkx) := by
        rw [innerFind_lookup_root hrxroot1 y, innerFind_lookup_root hrxroot x]
        exact hlkx
      have hlk2y : lookupEntry ((uf.innerFind x).2.innerFind y).2.parents ry =
          some (ry, rky) := by
        rw [innerFind_lookup_root hryroot1 y, innerFind_lookup_root hryroot x]
        exact hlky
      by_cases hcmp : rky > rkx
      · rw [heq]
        simp only [if_pos hcmp]
        obtain ⟨hk, hwf', _, _⟩ :=
          merge_state hwf2 (rkx + rky) hlk2y hlk2x (Ne.symm hrxy)
        exact ⟨hk.trans hkeys2, hwf'⟩
      · rw [heq]
        simp only [if_neg hcmp]
        obtain ⟨hk, hwf', _, _⟩ :=
          merge_state hwf2 (rkx + rky) hlk2x hlk2y hrxy
        exact ⟨hk.trans hkeys2, hwf'⟩

theorem union_rootD_mapping {uf : UnionFind T} (hwf : WF uf) {x y : T}
    (hx : x ∈ uf.keys) (hy : y ∈ uf.keys) :
    ∃ rx ry w, rootD uf x = some rx ∧ rootD uf y = some ry ∧
      (uf.union x y).1 = some w ∧ (w = rx ∨ w = ry) ∧
      ∀ j, rootD (uf.union x y).2 j =
        (rootD uf j).map (fun z => if z = rx ∨ z = ry then w else z) := by
  rcases union_cases hwf x y with ⟨hx', _⟩ | ⟨_, hy', _⟩ |
    ⟨rx, ry, rkx, rky, _, _, hrx, hry, hlkx, hlky, hbr⟩
  · exact absurd hx hx'
  · exact absurd hy hy'
  have hwf1 : WF (uf.innerFind x).2 := innerFind_wf hwf x
  have hwf2 : WF ((uf.innerFind x).2.innerFind y).2 := innerFind_wf hwf1 y
  have hroot2 : ∀ j, rootD ((uf.innerFind x).2.innerFind y).2 j =
      rootD uf j := by
    intro j
    rw [innerFind_rootD hwf1 y j, innerFind_rootD hwf x j]
  rcases hbr with ⟨hrxy, heq⟩ | ⟨hrxy, heq⟩
  · subst hrxy
    refine ⟨rx, rx, rx, hrx, hry, by rw [heq], Or.inl rfl, ?_⟩
    intro j
    rw [heq]
    show rootD ((uf.innerFind x).2.innerFind y).2 j = _
    rw [hroot2 j]
    cases hz : rootD uf j with
    | none => rfl
    | some z =>
      by_cases hzz : z = rx
      · simp [hzz]
      · simp [hzz]
  · have hrxroot : parentD uf.parents rx = some rx := by
      rw [parentD, hlkx] ; rfl
    have hryroot : parentD uf.parents ry = some ry := by
      rw [parentD, hlky] ; rfl
    have hrxroot1 : parentD (uf.innerFind x).2.parents rx = some rx := by
      rw [parentD, innerFind_lookup_root hrxroot x, hlkx] ; rfl
    have hryroot1 : parentD (uf.innerFind x).2.parents ry = some ry := by
      rw [parentD, innerFind_lookup_root hryroot x, hlky] ; rfl
    have hlk2x : lookupEntry ((uf.innerFind x).2.innerFind y).2.parents rx =
        some (rx, rkx) := by
      rw [innerFind_lookup_root hrxroot1 y, innerFind_lookup_root hrxroot x]
      exact hlkx
    have hlk2y : lookupEntry ((uf.innerFind x).2.innerFind y).2.parents ry =
        some (ry, rky) := by
      rw [innerFind_lookup_root hryroot1 y, innerFind_lookup_root hryroot x]
      exact hlky
    by_cases hcmp : rky > rkx
    · obtain ⟨_, _, hmap, _⟩ :=
        merge_state hwf2 (rkx + rky) hlk2y hlk2x (Ne.symm hrxy)
      refine ⟨rx, ry, ry, hrx, hry, by rw [heq] ; simp [hcmp], Or.inr rfl, ?_⟩
      intro j
      rw [heq]
      simp only [if_pos hcmp]
      show rootD (UnionFind.mk _) j = _
      rw [hmap j, hroot2 j]
      cases hz : rootD uf j with
      | none => rfl
      | some z =>
        by_cases h1 : z = rx
        · simp [h1, Ne.symm hrxy]
        · by_cases h2 : z = ry <;> simp [h1, h2]
    · obtain ⟨_, _, hmap, _⟩ :=
        merge_state hwf2 (rkx + rky) hlk2x hlk2y hrxy
      refine ⟨rx, ry, rx, hrx, hry, by rw [heq] ; simp [hcmp], Or.inl rfl, ?_⟩
      intro j
      rw [heq]
      simp only [if_neg hcmp]
      show rootD (UnionFind.mk _) j = _
      rw [hmap j, hroot2 j]
      cases hz : rootD uf j with
      | none => rfl
      | some z =>
        by_cases h1 : z = ry
        · simp [h1, hrxy]
        · by_cases h2 : z = rx <;> simp [h1, h2]

/-! ### `insert` characterization -/

theorem mapInsert_not_mem_eq_append {ps : List (T × Entry T)} {k : T}
    {v : Entry T} (h : k ∉ ps.map Prod.fst) :
    mapInsert ps k v = ps ++ [(k, v)] := by
  induction ps with
  | nil => rfl
  | cons e rest ih =>
    obtain ⟨k', v'⟩ := e
    simp only [List.map_cons, List.mem_cons] at h
    push_neg at h
    simp [mapInsert, Ne.symm h.1, ih h.2]

theorem lookupEntry_append {ps qs : List (T × Entry T)} {k : T} :
    lookupEntry (ps ++ qs) k =
      match lookupEntry ps k with
      | some v => some v
      | none => lookupEntry qs k := by
  induction ps with
  | nil => simp [lookupEntry]
  | cons e rest ih =>
    obtain ⟨k', v'⟩ := e
    by_cases h : k' = k <;> simp [lookupEntry, h, ih]

theorem insert_of_mem {uf : UnionFind T} {t : T} (h : t ∈ uf.keys) :
    uf.insert t = uf := by
  rw [UnionFind.insert, if_pos (containsKey_iff.mpr h)]

theorem insert_of_not_mem {uf : UnionFind T} {t : T} (h : t ∉ uf.keys) :
    uf.insert t = ⟨uf.parents ++ [(t, (t, 1))]⟩ := by
  rw [UnionFind.insert, if_neg (fun hc => h (containsKey_iff.mp hc)),
    mapInsert_not_mem_eq_append h]

theorem insert_keys {uf : UnionFind T} (t : T) :
    (uf.insert t).keys = if t ∈ uf.keys then uf.keys else uf.keys ++ [t] := by
  by_cases h : t ∈ uf.keys
  · rw [insert_of_mem h, if_pos h]
  · rw [insert_of_not_mem h, if_neg h, keys_def, keys_def]
    simp

theorem insert_lookup {uf : UnionFind T} {t : T} (h : t ∉ uf.keys) (j : T) :
    lookupEntry (uf.insert t).parents j =
      if j = t then some (t, 1) else lookupEntry uf.parents j := by
  rw [insert_of_not_mem h]
  show lookupEntry (uf.parents ++ [(t, (t, 1))]) j = _
  rw [lookupEntry_append]
  by_cases hj : j = t
  · subst hj
    rw [lookupEntry_eq_none_of_not_mem (by rw [← keys_def] ; exact h)]
    simp [lookupEntry]
  · rw [if_neg hj]
    cases hl : lookupEntry uf.parents j with
    | none => simp [lookupEntry, hj, Ne.symm hj]
    | some v => rfl

theorem insert_rootedAt {uf : UnionFind T} {t : T} (h : t ∉ uf.keys)
    {j z : T} (hjz : RootedAt uf.parents j z) :
    RootedAt (uf.insert t).parents j z := by
  refine rootedAt_mono ?_ hjz
  intro u e hu
  rw [insert_lookup h u]
  have : u ≠ t := by
    rintro rfl
    exact h (by rw [keys_def] ; exact mem_keys_of_lookupEntry hu)
  rw [if_neg this]
  exact hu

theorem insert_wf {uf : UnionFind T} (hwf : WF uf) (t : T) :
    WF (uf.insert t) := by
  by_cases h : t ∈ uf.keys
  · rw [insert_of_mem h]
    exact hwf
  · refine wf_of_sem ?_ ?_ ?_
    · rw [insert_keys, if_neg h]
      simp only [List.nodup_append]
      exact ⟨hwf.nodup, List.nodup_singleton t, by simpa using h⟩
    · intro e he
      rw [insert_of_not_mem h] at he
      rw [insert_keys, if_neg h]
      rcases List.mem_append.mp he with he | he
      · exact List.mem_append_left _ (hwf.closed e he)
      · obtain rfl : e = (t, (t, 1)) := by simpa using he
        simp
    · intro j hj
      rw [insert_keys, if_neg h] at hj
      rcases List.mem_append.mp hj with hj | hj
      · obtain ⟨z, hz⟩ := wf_rootedAt hwf hj
        exact ⟨z, insert_rootedAt h hz⟩
      · obtain rfl : j = t := by simpa using hj
        refine ⟨j, rootedAt_self ?_⟩
        rw [parentD, insert_lookup h j, if_pos rfl]
        rfl

theorem insert_rootD {uf : UnionFind T} (hwf : WF uf) {t : T}
    (h : t ∉ uf.keys) (j : T) :
    rootD (uf.insert t) j =
      if j = t then some t else rootD uf j := by
  by_cases hjt : j = t
  · subst hjt
    rw [if_pos rfl]
    refine rootD_eq_of_rootedAt (insert_wf hwf j) ?_ (rootedAt_self ?_)
    · rw [insert_keys, if_neg h]
      simp
    · rw [parentD, insert_lookup h j, if_pos rfl]
      rfl
  · rw [if_neg hjt]
    by_cases hj : j ∈ uf.keys
    · have hs := rootD_isSome_of_mem hwf hj
      rw [Option.isSome_iff_exists] at hs
      obtain ⟨z, hz⟩ := hs
      rw [hz]
      refine rootD_eq_of_rootedAt (insert_wf hwf t) ?_
        (insert_rootedAt h (rootD_sound hz))
      rw [insert_keys, if_neg h]
      exact List.mem_append_left _ hj
    · rw [rootD_not_mem hj, rootD_not_mem ?_]
      rw [insert_keys, if_neg h]
      simp only [List.mem_append, List.mem_singleton]
      rintro (hc | hc)
      · exact hj hc
      · exact hjt hc

/-! ### Rank and group-size helpers -/

theorem length_filter_or {α : Type} (l : List α) (p q : α → Bool)
    (h : ∀ a ∈ l, ¬(p a = true ∧ q a = true)) :
    (l.filter fun a => p a || q a).length =
      (l.filter p).length + (l.filter q).length := by
  induction l with
  | nil => rfl
  | cons a l ih =>
    have hd := h a (by simp)
    have ih' := ih (fun b hb => h b (by simp [hb]))
    by_cases hp : p a = true
    · by_cases hq : q a = true
      · exact absurd ⟨hp, hq⟩ hd
      · simp [List.filter_cons, hp, hq, ih']
        omega
    · by_cases hq : q a = true
      · simp [List.filter_cons, hp, hq, ih']
        omega
      · simp [List.filter_cons, hp, hq, ih']

theorem rankMono_of_lookup {uf : UnionFind T}
    (h : ∀ k p rk, lookupEntry uf.parents k = some (p, rk) →
      ∀ q prk, lookupEntry uf.parents p = some (q, prk) → rk ≤ prk)
    (hnd : uf.keys.Nodup) : RankMono uf := by
  intro e he e' he' heq
  obtain ⟨k, p, rk⟩ := e
  obtain ⟨k', q, prk⟩ := e'
  simp only at heq
  subst heq
  exact h k p rk (lookupEntry_of_mem_nodup hnd he) q prk
    (lookupEntry_of_mem_nodup hnd he')

theorem rankMono_lookup {uf : UnionFind T} (h : RankMono uf) {k p : T}
    {rk : Nat} (hk : lookupEntry uf.parents k = some (p, rk)) {q : T}
    {prk : Nat} (hp : lookupEntry uf.parents p = some (q, prk)) : rk ≤ prk :=
  h (k, (p, rk)) (mem_of_lookupEntry hk) (p, (q, prk)) (mem_of_lookupEntry hp)
    rfl

theorem sizeInv_of_lookup {uf : UnionFind T}
    (h : ∀ r rk, lookupEntry uf.parents r = some (r, rk) →
      rk = groupSize uf r) (hnd : uf.keys.Nodup) : SizeInv uf := by
  intro e he heq
  obtain ⟨k, p, rk⟩ := e
  simp only at heq
  subst heq
  exact h p rk (lookupEntry_of_mem_nodup hnd he)

theorem sizeInv_lookup {uf : UnionFind T} (h : SizeInv uf) {r : T} {rk : Nat}
    (hr : lookupEntry uf.parents r = some (r, rk)) : rk = groupSize uf r :=
  h (r, (r, rk)) (mem_of_lookupEntry hr) rfl

/-- Ranks are non-decreasing all the way to the root. -/
theorem rank_le_root {uf : UnionFind T} (hrm : RankMono uf) {u r : T}
    (h : RootedAt uf.parents u r) {p : T} {ru : Nat}
    (hu : lookupEntry uf.parents u = some (p, ru)) {q : T} {rr : Nat}
    (hr : lookupEntry uf.parents r = some (q, rr)) : ru ≤ rr := by
  obtain ⟨n, hn, hz⟩ := h
  suffices main : ∀ n2 u2 p2 ru2, iterParent uf.parents n2 u2 = some r →
      lookupEntry uf.parents u2 = some (p2, ru2) → ru2 ≤ rr by
    exact main n u p ru hn hu
  clear hn hu
  intro n2
  induction n2 using Nat.strong_induction_on with
  | _ n ih =>
    intro u p ru hn hu
    by_cases hpu : p = u
    · have hpar : parentD uf.parents u = some u := by
        rw [parentD, hu, hpu]
        rfl
      have hru : r = u := rootedAt_root_eq ⟨n, hn, hz⟩ hpar
      rw [hru] at hr
      have h12 := Option.some.inj (hu.symm.trans hr)
      have h13 : ru = rr := congrArg Prod.snd h12
      exact le_of_eq h13
    · have hpar : parentD uf.parents u = some p := by
        rw [parentD, hu]
        rfl
      obtain ⟨m, hm, hmp⟩ := rootedAt_unfold hn hz hpar hpu
      cases m with
      | zero =>
        obtain rfl : p = r := by simpa [iterParent] using hmp
        exact rankMono_lookup hrm hu hr
      | succ m =>
        have hppar : ∃ e, lookupEntry uf.parents p = some e := by
          rw [iterParent] at hmp
          cases hpp : parentD uf.parents p with
          | none => rw [hpp] at hmp ; exact absurd hmp (by simp)
          | some v =>
            cases hl : lookupEntry uf.parents p with
            | none => rw [parentD, hl] at hpp ; exact absurd hpp (by simp)
            | some e => exact ⟨e, rfl⟩
        obtain ⟨⟨p2, rp⟩, hp2⟩ := hppar
        exact le_trans (rankMono_lookup hrm hu hp2)
          (ih (m + 1) hm p p2 rp hmp hp2)

theorem groupSize_congr {uf uf' : UnionFind T} {r : T}
    (hkeys : uf'.keys = uf.keys)
    (hroot : ∀ j, j ∈ uf.keys → rootD uf' j = rootD uf j) :
    groupSize uf' r = groupSize uf r := by
  rw [groupSize, groupSize, hkeys]
  congr 1
  refine List.filter_congr ?_
  intro j hj
  simp [hroot j hj]

/-! ### Invariant preservation: `insert` -/

theorem rootD_mem_keys {uf : UnionFind T} {j z : T} (h : rootD uf j = some z) :
    z ∈ uf.keys := by
  have := (rootD_sound h).choose_spec.2
  rw [keys_def]
  exact mem_keys_of_parentD this

theorem insert_inv {uf : UnionFind T} (hinv : Inv uf) (t : T) :
    Inv (uf.insert t) := by
  by_cases h : t ∈ uf.keys
  · rw [insert_of_mem h]
    exact hinv
  · have hwf := hinv.wf
    have hwf' := insert_wf hwf t
    have hkeys' : (uf.insert t).keys = uf.keys ++ [t] := by
      rw [insert_keys, if_neg h]
    have hrootOld : ∀ j, j ∈ uf.keys → rootD (uf.insert t) j = rootD uf j := by
      intro j hj
      have hjt : j ≠ t := fun hc => h (hc ▸ hj)
      rw [insert_rootD hwf h j, if_neg hjt]
    refine ⟨hwf', ?_, ?_⟩
    · refine rankMono_of_lookup ?_ hwf'.nodup
      intro k p rk hk q prk hp
      rw [insert_lookup h k] at hk
      rw [insert_lookup h p] at hp
      by_cases hkt : k = t
      · rw [if_pos hkt] at hk
        have hk' := Option.some.inj hk
        have hpt : p = t := (congrArg Prod.fst hk').symm
        have hrk1 : rk = 1 := (congrArg Prod.snd hk').symm
        rw [if_pos hpt] at hp
        have hprk : prk = 1 := (congrArg Prod.snd (Option.some.inj hp)).symm
        omega
      · rw [if_neg hkt] at hk
        have hpt : p ≠ t := by
          intro hc
          subst hc
          exact h (hwf.closed (k, (p, rk)) (mem_of_lookupEntry hk))
        rw [if_neg hpt] at hp
        exact rankMono_lookup hinv.rankMono hk hp
    · refine sizeInv_of_lookup ?_ hwf'.nodup
      intro r rk hr
      rw [insert_lookup h r] at hr
      by_cases hrt : r = t
      · subst hrt
        rw [if_pos rfl] at hr
        have hrk1 : rk = 1 := (congrArg Prod.snd (Option.some.inj hr)).symm
        rw [hrk1, groupSize, hkeys', List.filter_append]
        have h1 : uf.keys.filter
            (fun k => rootD (uf.insert r) k = some r) = [] := by
          rw [List.filter_eq_nil_iff]
          intro j hj
          simp only [hrootOld j hj, decide_eq_true_eq]
          intro hc
          exact h (rootD_mem_keys hc)
        rw [h1]
        have h2 : rootD (uf.insert r) r = some r := by
          rw [insert_rootD hwf h r, if_pos rfl]
        simp [h2]
      · rw [if_neg hrt] at hr
        have hrk := sizeInv_lookup hinv.sizeInv hr
        have hrmem : r ∈ uf.keys := by
          rw [keys_def]
          exact mem_keys_of_lookupEntry hr
        rw [groupSize, hkeys', List.filter_append]
        have h1 : uf.keys.filter (fun k => rootD (uf.insert t) k = some r) =
            uf.keys.filter (fun k => rootD uf k = some r) := by
          refine List.filter_congr ?_
          intro j hj
          simp [hrootOld j hj]
        have h2 : [t].filter (fun k => rootD (uf.insert t) k = some r) = [] := by
          have ht : rootD (uf.insert t) t = some t := by
            rw [insert_rootD hwf h t, if_pos rfl]
          simp [List.filter, ht, Ne.symm hrt]
        rw [h1, h2]
        simpa [groupSize] using hrk

/-! ### Invariant preservation: `innerFind` and `union` -/

theorem innerFind_inv {uf : UnionFind T} (hinv : Inv uf) (k : T) :
    Inv (uf.innerFind k).2 := by
  by_cases hk : k ∈ uf.keys
  swap
  · rw [innerFind_not_mem hk]
    exact hinv
  obtain ⟨r, rr, L, hfc, heq⟩ := innerFind_spec hinv.wf hk
  have hwf' : WF (uf.innerFind k).2 := innerFind_wf hinv.wf k
  have hroot' : ∀ j, rootD (uf.innerFind k).2 j = rootD uf j :=
    innerFind_rootD hinv.wf k
  have hkeys' : (uf.innerFind k).2.keys = uf.keys := innerFind_keys k
  obtain ⟨hrootlk, hiter, hrfix, hmem⟩ := findChain_sound hfc
  have hrL : r ∉ L := by
    intro hr
    obtain ⟨_, p, rk0, hlk, hpne⟩ := hmem r hr
    rw [hrootlk] at hlk
    exact hpne (And.left (by simpa using hlk.symm))
  have hlook : ∀ u, lookupEntry (uf.innerFind k).2.parents u =
      if u ∈ L then some (r, rr) else lookupEntry uf.parents u := by
    intro u
    rw [heq]
    exact lookupEntry_applyUpdates
  refine ⟨hwf', ?_, ?_⟩
  · refine rankMono_of_lookup ?_ hwf'.nodup
    intro a p rk ha q prk hp
    rw [hlook a] at ha
    rw [hlook p] at hp
    by_cases haL : a ∈ L
    · rw [if_pos haL] at ha
      have ha' := Option.some.inj ha
      have hpr : p = r := (congrArg Prod.fst ha').symm
      have hrkrr : rk = rr := (congrArg Prod.snd ha').symm
      rw [hpr, if_neg hrL, hrootlk] at hp
      have hprk : prk = rr := (congrArg Prod.snd (Option.some.inj hp)).symm
      omega
    · rw [if_neg haL] at ha
      by_cases hpL : p ∈ L
      · rw [if_pos hpL] at hp
        have hprk : prk = rr := (congrArg Prod.snd (Option.some.inj hp)).symm
        obtain ⟨hrootp, pp, rkp, hlkp, _⟩ := hmem p hpL
        have h1 : rk ≤ rkp := rankMono_lookup hinv.rankMono ha hlkp
        have h2 : rkp ≤ rr := rank_le_root hinv.rankMono hrootp hlkp hrootlk
        omega
      · rw [if_neg hpL] at hp
        exact rankMono_lookup hinv.rankMono ha hp
  · refine sizeInv_of_lookup ?_ hwf'.nodup
    intro s rk hs
    rw [hlook s] at hs
    by_cases hsL : s ∈ L
    · rw [if_pos hsL] at hs
      have hrs : r = s := congrArg Prod.fst (Option.some.inj hs)
      exact absurd (hrs ▸ hsL) hrL
    · rw [if_neg hsL] at hs
      have hold := sizeInv_lookup hinv.sizeInv hs
      rw [hold]
      exact (groupSize_congr hkeys' (fun j _ => hroot' j)).symm

theorem merge_inv {uf2 : UnionFind T} (hinv2 : Inv uf2) {w l : T}
    {rkw rkl : Nat}
    (hlw : lookupEntry uf2.parents w = some (w, rkw))
    (hll : lookupEntry uf2.parents l = some (l, rkl)) (hwl : w ≠ l)
    {s : Nat} (hs : s = rkw + rkl) :
    Inv (UnionFind.mk (setEntry (setEntry uf2.parents l (w, s)) w (w, s))) := by
  obtain ⟨hkeys', hwf', hmap, hlook⟩ := merge_state hinv2.wf s hlw hll hwl
  refine ⟨hwf', ?_, ?_⟩
  · refine rankMono_of_lookup ?_ hwf'.nodup
    intro a p rk ha q prk hp
    rw [hlook a] at ha
    rw [hlook p] at hp
    by_cases haw : a = w
    · rw [if_pos haw] at ha
      have ha' := Option.some.inj ha
      have hpw : p = w := (congrArg Prod.fst ha').symm
      have hrk : rk = s := (congrArg Prod.snd ha').symm
      rw [if_pos hpw] at hp
      have hprk : prk = s := (congrArg Prod.snd (Option.some.inj hp)).symm
      omega
    · rw [if_neg haw] at ha
      by_cases hal : a = l
      · rw [if_pos hal] at ha
        have ha' := Option.some.inj ha
        have hpw : p = w := (congrArg Prod.fst ha').symm
        have hrk : rk = s := (congrArg Prod.snd ha').symm
        rw [if_pos hpw] at hp
        have hprk : prk = s := (congrArg Prod.snd (Option.some.inj hp)).symm
        omega
      · rw [if_neg hal] at ha
        by_cases hpw : p = w
        · rw [if_pos hpw] at hp
          have hprk : prk = s := (congrArg Prod.snd (Option.some.inj hp)).symm
          have h1 : rk ≤ rkw := by
            rw [hpw] at ha
            exact rankMono_lookup hinv2.rankMono ha hlw
          omega
        · rw [if_neg hpw] at hp
          by_cases hpl : p = l
          · rw [if_pos hpl] at hp
            have hprk : prk = s := (congrArg Prod.snd (Option.some.inj hp)).symm
            have h1 : rk ≤ rkl := by
              rw [hpl] at ha
              exact rankMono_lookup hinv2.rankMono ha hll
            omega
          · rw [if_neg hpl] at hp
            exact rankMono_lookup hinv2.rankMono ha hp
  · refine sizeInv_of_lookup ?_ hwf'.nodup
    intro s0 rk hs0
    rw [hlook s0] at hs0
    have hgkeys : (UnionFind.mk
        (setEntry (setEntry uf2.parents l (w, s)) w (w, s))).keys =
        uf2.keys := hkeys'
    by_cases h0w : s0 = w
    · rw [if_pos h0w] at hs0
      have hs0' := Option.some.inj hs0
      have hrk : rk = s := (congrArg Prod.snd hs0').symm
      have hgw : groupSize uf2 w = rkw := (sizeInv_lookup hinv2.sizeInv hlw).symm
      have hgl : groupSize uf2 l = rkl := (sizeInv_lookup hinv2.sizeInv hll).symm
      rw [h0w, hrk, groupSize, hgkeys]
      have hsplit : uf2.keys.filter (fun j => rootD
          (UnionFind.mk (setEntry (setEntry uf2.parents l (w, s)) w (w, s))) j
            = some w) =
          uf2.keys.filter (fun j =>
            decide (rootD uf2 j = some w) || decide (rootD uf2 j = some l)) := by
        refine List.filter_congr ?_
        intro j _
        rw [hmap j]
        cases hz : rootD uf2 j with
        | none => simp
        | some z =>
          by_cases hzl : z = l
          · simp [hzl]
          · by_cases hzw : z = w <;> simp [hzl, hzw]
      rw [hsplit, length_filter_or]
      · rw [← groupSize, ← groupSize, hgw, hgl]
        exact hs
      · intro a _
        rintro ⟨h1, h2⟩
        simp only [decide_eq_true_eq] at h1 h2
        rw [h1] at h2
        exact hwl (Option.some.inj h2)
    · rw [if_neg h0w] at hs0
      by_cases h0l : s0 = l
      · rw [if_pos h0l] at hs0
        exact absurd (congrArg Prod.fst (Option.some.inj hs0)).symm h0w
      · rw [if_neg h0l] at hs0
        have hold := sizeInv_lookup hinv2.sizeInv hs0
        rw [hold, groupSize, groupSize, hgkeys]
        congr 1
        refine List.filter_congr ?_
        intro j _
        rw [hmap j]
        cases hz : rootD uf2 j with
        | none => simp
        | some z =>
          by_cases hzl : z = l
          · simp [hzl, Ne.symm h0w, Ne.symm h0l]
          · simp [hzl]

theorem union_inv {uf : UnionFind T} (hinv : Inv uf) (x y : T) :
    Inv (uf.union x y).2 := by
  rcases union_cases hinv.wf x y with ⟨hx, heq⟩ | ⟨hx, hy, heq⟩ |
    ⟨rx, ry, rkx, rky, hx, hy, hrx, hry, hlkx, hlky, hbr⟩
  · rw [heq]
    exact hinv
  · rw [heq]
    exact innerFind_inv hinv x
  · have hinv2 : Inv ((uf.innerFind x).2.innerFind y).2 :=
      innerFind_inv (innerFind_inv hinv x) y
    rcases hbr with ⟨hrxy, heq⟩ | ⟨hrxy, heq⟩
    · rw [heq]
      exact hinv2
    · have hrxroot : parentD uf.parents rx = some rx := by
        rw [parentD, hlkx] ; rfl
      have hryroot : parentD uf.parents ry = some ry := by
        rw [parentD, hlky] ; rfl
      have hrxroot1 : parentD (uf.innerFind x).2.parents rx = some rx := by
        rw [parentD, innerFind_lookup_root hrxroot x, hlkx] ; rfl
      have hryroot1 : parentD (uf.innerFind x).2.parents ry = some ry := by
        rw [parentD, innerFind_lookup_root hryroot x, hlky] ; rfl
      have hlk2x : lookupEntry ((uf.innerFind x).2.innerFind y).2.parents rx =
          some (rx, rkx) := by
        rw [innerFind_lookup_root hrxroot1 y, innerFind_lookup_root hrxroot x]
        exact hlkx
      have hlk2y : lookupEntry ((uf.innerFind x).2.innerFind y).2.parents ry =
          some (ry, rky) := by
        rw [innerFind_lookup_root hryroot1 y, innerFind_lookup_root hryroot x]
        exact hlky
      by_cases hcmp : rky > rkx
      · rw [heq]
        simp only [if_pos hcmp]
        exact merge_inv hinv2 hlk2y hlk2x (Ne.symm hrxy) (by omega)
      · rw [heq]
        simp only [if_neg hcmp]
        exact merge_inv hinv2 hlk2x hlk2y hrxy (by omega)

/-! ### Reachability implies the invariant -/

theorem inv_new : Inv (UnionFind.new : UnionFind T) := by
  refine ⟨⟨?_, ?_, ?_⟩, ?_, ?_⟩
  · exact List.nodup_nil
  · intro e he
    exact absurd he (List.not_mem_nil e)
  · intro k hk
    exact absurd hk (List.not_mem_nil k)
  · intro e he
    exact absurd he (List.not_mem_nil e)
  · intro e he
    exact absurd he (List.not_mem_nil e)

theorem reachable_inv {uf : UnionFind T} (h : Reachable uf) : Inv uf := by
  induction h with
  | new => exact inv_new
  | insertStep t _ ih => exact insert_inv ih t
  | findStep x _ ih => exact innerFind_inv ih x
  | unionStep x y _ ih => exact union_inv ih x y

theorem reachable_wf {uf : UnionFind T} (h : Reachable uf) : WF uf :=
  (reachable_inv h).wf

/-! ### Auxiliary bridges used by the claim theorems -/

theorem mem_of_rootD {uf : UnionFind T} {k r : T} (h : rootD uf k = some r) :
    k ∈ uf.keys := by
  by_contra hk
  rw [rootD_not_mem hk] at h
  exact absurd h (by simp)

theorem find_fst {uf : UnionFind T} (hwf : WF uf) {k : T} (hk : k ∈ uf.keys) :
    (uf.find k).1 = rootD uf k := by
  obtain ⟨r, rr, h1, h2, _⟩ := innerFind_fst hwf hk
  show (uf.innerFind k).1.map Prod.fst = _
  rw [h1, h2]
  rfl

theorem find_snd (uf : UnionFind T) (k : T) :
    (uf.find k).2 = (uf.innerFind k).2 := rfl

/-- Ranks are non-decreasing along every step of a parent chain. -/
theorem rank_le_iter {uf : UnionFind T} (hrm : RankMono uf) {n : Nat}
    {k v : T} (hit : iterParent uf.parents n k = some v) {p : T} {rk : Nat}
    (hk : lookupEntry uf.parents k = some (p, rk)) {q : T} {rv : Nat}
    (hv : lookupEntry uf.parents v = some (q, rv)) : rk ≤ rv := by
  induction n generalizing k p rk with
  | zero =>
    obtain rfl : k = v := by simpa [iterParent] using hit
    have h12 := Option.some.inj (hk.symm.trans hv)
    exact le_of_eq (congrArg Prod.snd h12)
  | succ n ih =>
    have hpar : parentD uf.parents k = some p := by
      rw [parentD, hk]
      rfl
    rw [iterParent, hpar] at hit
    have hit' : iterParent uf.parents n p = some v := hit
    cases n with
    | zero =>
      obtain rfl : p = v := by simpa [iterParent] using hit'
      exact rankMono_lookup hrm hk hv
    | succ n =>
      have hppar : ∃ e, lookupEntry uf.parents p = some e := by
        rw [iterParent] at hit'
        cases hpp : parentD uf.parents p with
        | none => rw [hpp] at hit' ; exact absurd hit' (by simp)
        | some v2 =>
          cases hl : lookupEntry uf.parents p with
          | none => rw [parentD, hl] at hpp ; exact absurd hpp (by simp)
          | some e => exact ⟨e, rfl⟩
      obtain ⟨⟨p2, rp⟩, hp2⟩ := hppar
      exact le_trans (rankMono_lookup hrm hk hp2) (ih hit' hp2)

/-- The leader stays the same and the partition is untouched when the two
arguments already share a root. -/
theorem union_same_root {uf : UnionFind T} (hwf : WF uf) {a b r : T}
    (hra : rootD uf a = some r) (hrb : rootD uf b = some r) :
    (uf.union a b).1 = some r ∧
      ∀ j, rootD (uf.union a b).2 j = rootD uf j := by
  have ha : a ∈ uf.keys := mem_of_rootD hra
  have hb : b ∈ uf.keys := mem_of_rootD hrb
  rcases union_cases hwf a b with ⟨ha', _⟩ | ⟨_, hb', _⟩ |
    ⟨rx, ry, rkx, rky, _, _, hrx, hry, _, _, hbr⟩
  · exact absurd ha ha'
  · exact absurd hb hb'
  have hxr : rx = r := Option.some.inj (hrx.symm.trans hra)
  have hyr : ry = r := Option.some.inj (hry.symm.trans hrb)
  rcases hbr with ⟨_, heq⟩ | ⟨hne, _⟩
  swap
  · exact absurd (hxr.trans hyr.symm) hne
  have hwf1 : WF (uf.innerFind a).2 := innerFind_wf hwf a
  refine ⟨by rw [heq, hxr], ?_⟩
  intro j
  rw [heq]
  show rootD ((uf.innerFind a).2.innerFind b).2 j = _
  rw [innerFind_rootD hwf1 b j, innerFind_rootD hwf a j]

/-! ### Claim theorems -/

/-- C1 (counterexample): `union(3, 99)` on a reachable state with `3`
inserted and `99` unknown returns not-found, yet the state is mutated (the
compressing resolution of `3` rewrote its entry), refuting the claimed
atomic no-op. -/
theorem c1_counterexample :
    3 ∈ ufScenario.keys ∧ 99 ∉ ufScenario.keys ∧
      (ufScenario.union 3 99).1 = none ∧
      (ufScenario.union 3 99).2 ≠ ufScenario := by decide

/-- C1 (amended): `union(x, y)` returns not-found iff `x` or `y` was never
inserted; when `x` is unknown the state is completely untouched, and in
every not-found case the only mutation is the path compression performed by
resolving `x` (so the state equals `inner_find x`'s successor state and
every identifier's root is unchanged). -/
theorem c1_union_not_found {uf : UnionFind T} (hwf : WF uf) (x y : T) :
    ((uf.union x y).1 = none ↔ (x ∉ uf.keys ∨ y ∉ uf.keys)) ∧
      (x ∉ uf.keys → (uf.union x y).2 = uf) ∧
      ((uf.union x y).1 = none → (uf.union x y).2 = (uf.innerFind x).2 ∧
        ∀ j, rootD (uf.union x y).2 j = rootD uf j) := by
  rcases union_cases hwf x y with ⟨hx, heq⟩ | ⟨hx, hy, heq⟩ |
    ⟨rx, ry, rkx, rky, hx, hy, _, _, _, _, hbr⟩
  · refine ⟨⟨fun _ => Or.inl hx, fun _ => by rw [heq]⟩,
      fun _ => by rw [heq], fun _ => ⟨?_, ?_⟩⟩
    · rw [heq, innerFind_not_mem hx]
    · intro j
      rw [heq]
  · refine ⟨⟨fun _ => Or.inr hy, fun _ => by rw [heq]⟩,
      fun hc => absurd hx hc, fun _ => ⟨by rw [heq], ?_⟩⟩
    intro j
    rw [heq]
    exact innerFind_rootD hwf x j
  · have hsome : ∃ w, (uf.union x y).1 = some w := by
      rcases hbr with ⟨_, heq⟩ | ⟨_, heq⟩
      · exact ⟨rx, by rw [heq]⟩
      · exact ⟨if rky > rkx then ry else rx, by rw [heq]⟩
    obtain ⟨w, hw⟩ := hsome
    refine ⟨⟨fun hc => ?_, fun hc => ?_⟩, fun hc => absurd hx hc,
      fun hc => ?_⟩
    · rw [hw] at hc
      exact absurd hc (by simp)
    · rcases hc with hc | hc
      · exact absurd hx hc
      · exact absurd hy hc
    · rw [hw] at hc
      exact absurd hc (by simp)

/-- C1 witness: the amended theorem applied to the concrete reachable state
with `x = 3` inserted and `y = 99` unknown. -/
theorem c1_union_not_found_witness :
    WF ufScenario ∧
      (((ufScenario.union 3 99).1 = none ↔
          (3 ∉ ufScenario.keys ∨ 99 ∉ ufScenario.keys)) ∧
        (3 ∉ ufScenario.keys → (ufScenario.union 3 99).2 = ufScenario) ∧
        ((ufScenario.union 3 99).1 = none →
          (ufScenario.union 3 99).2 = (ufScenario.innerFind 3).2 ∧
          ∀ j, rootD (ufScenario.union 3 99).2 j = rootD ufScenario j)) := by
  have hwf : WF ufScenario := ⟨by decide, by decide, by decide⟩
  exact ⟨hwf, c1_union_not_found hwf 3 99⟩

/-- C5: with distinct resolved leaders, `union` returns the strictly
higher-ranked leader, and on a rank tie the leader resolved from the first
argument `x`; the swap happens only when `y`'s leader's rank is strictly
greater. -/
theorem c5_union_by_rank {uf : UnionFind T} (hwf : WF uf) {x y rx ry : T}
    (hrx : rootD uf x = some rx) (hry : rootD uf y = some ry) (hne : rx ≠ ry)
    {rkx rky : Nat}
    (hlkx : lookupEntry uf.parents rx = some (rx, rkx))
    (hlky : lookupEntry uf.parents ry = some (ry, rky)) :
    (uf.union x y).1 = some (if rky > rkx then ry else rx) := by
  rcases union_cases hwf x y with ⟨hx', _⟩ | ⟨_, hy', _⟩ |
    ⟨rx2, ry2, rkx2, rky2, _, _, hrx2, hry2, hlkx2, hlky2, hbr⟩
  · exact absurd (mem_of_rootD hrx) hx'
  · exact absurd (mem_of_rootD hry) hy'
  have e1 : rx2 = rx := Option.some.inj (hrx2.symm.trans hrx)
  have e2 : ry2 = ry := Option.some.inj (hry2.symm.trans hry)
  have e3 : rkx2 = rkx := by
    rw [e1] at hlkx2
    exact congrArg Prod.snd (Option.some.inj (hlkx2.symm.trans hlkx))
  have e4 : rky2 = rky := by
    rw [e2] at hlky2
    exact congrArg Prod.snd (Option.some.inj (hlky2.symm.trans hlky))
  rcases hbr with ⟨hsame, _⟩ | ⟨_, heq⟩
  · rw [e1, e2] at hsame
    exact absurd hsame hne
  · rw [heq, e1, e2, e3, e4]

/-- C5 witness: in the state after `insert 0..3; union 0 1`, the leaders of
`0` and `2` are `0` (rank 2) and `2` (rank 1); `union 0 2` returns `0`. -/
theorem c5_union_by_rank_witness :
    WF ufScenario1 ∧ rootD ufScenario1 0 = some 0 ∧
      rootD ufScenario1 2 = some 2 ∧ (0 : Nat) ≠ 2 ∧
      lookupEntry ufScenario1.parents 0 = some (0, 2) ∧
      lookupEntry ufScenario1.parents 2 = some (2, 1) ∧
      (ufScenario1.union 0 2).1 = some (if 1 > 2 then 2 else 0) := by
  have hwf : WF ufScenario1 := ⟨by decide, by decide, by decide⟩
  refine ⟨hwf, by decide, by decide, by decide, by decide, by decide, ?_⟩
  exact c5_union_by_rank hwf (by decide) (by decide) (by decide)
    (by decide) (by decide)

/-- C6 (counterexample): on a reachable state where `3` and `1` already
share the leader `0`, `union(3, 1)` returns that leader but still mutates
entries (the two compressing finds rewrite the stale entries of `3` and
`1`), refuting "performs no structural mutation". -/
theorem c6_counterexample :
    rootD ufScenario 3 = some 0 ∧ rootD ufScenario 1 = some 0 ∧
      (ufScenario.union 3 1).1 = some 0 ∧
      (ufScenario.union 3 1).2 ≠ ufScenario := by decide

/-- C6 (amended): when `a` and `b` already share a leader, `union(a, b)`
returns that leader, every identifier's leader (everything observable via
`find`) is unchanged, and calling `union(a, b)` again returns the same
leader and again changes nothing observable via `find`; the only mutation
either call makes is the path compression of the internal finds. -/
theorem c6_union_idempotent {uf : UnionFind T} (hwf : WF uf) {a b r : T}
    (hra : rootD uf a = some r) (hrb : rootD uf b = some r) :
    (uf.union a b).1 = some r ∧
      (∀ j, rootD (uf.union a b).2 j = rootD uf j) ∧
      ((uf.union a b).2.union a b).1 = some r ∧
      (∀ j, rootD ((uf.union a b).2.union a b).2 j =
        rootD (uf.union a b).2 j) := by
  obtain ⟨h1, h2⟩ := union_same_root hwf hra hrb
  have hwf' : WF (uf.union a b).2 := (union_keys_wf hwf a b).2
  obtain ⟨h3, h4⟩ := union_same_root hwf' (by rw [h2 a] ; exact hra)
    (by rw [h2 b] ; exact hrb)
  exact ⟨h1, h2, h3, h4⟩

/-- C6 witness: the amended theorem at the concrete state where `3` and `1`
already share the leader `0`. -/
theorem c6_union_idempotent_witness :
    WF ufScenario ∧ rootD ufScenario 3 = some 0 ∧
      rootD ufScenario 1 = some 0 ∧
      ((ufScenario.union 3 1).1 = some 0 ∧
        (∀ j, rootD (ufScenario.union 3 1).2 j = rootD ufScenario j) ∧
        ((ufScenario.union 3 1).2.union 3 1).1 = some 0 ∧
        (∀ j, rootD ((ufScenario.union 3 1).2.union 3 1).2 j =
          rootD (ufScenario.union 3 1).2 j)) := by
  have hwf : WF ufScenario := ⟨by decide, by decide, by decide⟩
  exact ⟨hwf, by decide, by decide,
    c6_union_idempotent hwf (by decide) (by decide)⟩

/-- C7: `find(id)` returns not-found exactly when `id` was never inserted,
and in that case the state is completely unchanged. -/
theorem c7_find_not_found {uf : UnionFind T} (hwf : WF uf) (idq : T) :
    ((uf.find idq).1 = none ↔ idq ∉ uf.keys) ∧
      (idq ∉ uf.keys → (uf.find idq).2 = uf) := by
  by_cases h : idq ∈ uf.keys
  · refine ⟨⟨fun hn => ?_, fun hc => absurd h hc⟩, fun hc => absurd h hc⟩
    obtain ⟨r, rr, h1, _, _⟩ := innerFind_fst hwf h
    have h2 : (uf.find idq).1 = some r := by
      show (uf.innerFind idq).1.map Prod.fst = some r
      rw [h1]
      rfl
    rw [h2] at hn
    exact absurd hn (by simp)
  · have heq := innerFind_not_mem h
    refine ⟨⟨fun _ => h, fun _ => ?_⟩, fun _ => ?_⟩
    · show (uf.innerFind idq).1.map Prod.fst = none
      rw [heq]
      rfl
    · show (uf.innerFind idq).2 = uf
      rw [heq]

/-- C7 witness: `find 99` on the concrete state (where `99` was never
inserted) is not-found and mutates nothing. -/
theorem c7_find_not_found_witness :
    WF ufScenario ∧
      (((ufScenario.find 99).1 = none ↔ 99 ∉ ufScenario.keys) ∧
        (99 ∉ ufScenario.keys → (ufScenario.find 99).2 = ufScenario)) := by
  have hwf : WF ufScenario := ⟨by decide, by decide, by decide⟩
  exact ⟨hwf, c7_find_not_found hwf 99⟩

/-- C2: after `union(a, b)` and then `union(b, c)` on a state where `a`,
`b`, `c` are all inserted, the three (state-threaded, compressing) `find`
calls on `a`, `b`, `c` all return the same leader. -/
theorem c2_union_transitive {uf : UnionFind T} (hwf : WF uf) {a b c : T}
    (ha : a ∈ uf.keys) (hb : b ∈ uf.keys) (hc : c ∈ uf.keys) :
    (((uf.union a b).2.union b c).2.find a).1.isSome = true ∧
      (((uf.union a b).2.union b c).2.find a).1 =
        ((((uf.union a b).2.union b c).2.find a).2.find b).1 ∧
      ((((uf.union a b).2.union b c).2.find a).2.find b).1 =
        (((((uf.union a b).2.union b c).2.find a).2.find b).2.find c).1 := by
  obtain ⟨hkeys1, hwf1⟩ := union_keys_wf hwf a b
  obtain ⟨ra, rb, w1, hra, hrb, _, _, hmap1⟩ := union_rootD_mapping hwf ha hb
  have hb1 : b ∈ (uf.union a b).2.keys := by rw [hkeys1] ; exact hb
  have hc1 : c ∈ (uf.union a b).2.keys := by rw [hkeys1] ; exact hc
  obtain ⟨hkeys2, hwf2⟩ := union_keys_wf hwf1 b c
  obtain ⟨rb', rc, w2, hrb', hrc, _, _, hmap2⟩ :=
    union_rootD_mapping hwf1 hb1 hc1
  have hra1 : rootD (uf.union a b).2 a = some w1 := by
    rw [hmap1 a, hra]
    simp
  have hrb1 : rootD (uf.union a b).2 b = some w1 := by
    rw [hmap1 b, hrb]
    simp
  have hrbw : rb' = w1 := Option.some.inj (hrb'.symm.trans hrb1)
  have hra2 : rootD ((uf.union a b).2.union b c).2 a = some w2 := by
    rw [hmap2 a, hra1]
    simp [hrbw]
  have hrb2 : rootD ((uf.union a b).2.union b c).2 b = some w2 := by
    rw [hmap2 b, hrb']
    simp
  have hrc2 : rootD ((uf.union a b).2.union b c).2 c = some w2 := by
    rw [hmap2 c, hrc]
    simp
  have ha2 : a ∈ ((uf.union a b).2.union b c).2.keys := by
    rw [hkeys2, hkeys1]
    exact ha
  have hf1 : (((uf.union a b).2.union b c).2.find a).1 = some w2 := by
    rw [find_fst hwf2 ha2, hra2]
  have hwf3 : WF (((uf.union a b).2.union b c).2.find a).2 := by
    rw [find_snd]
    exact innerFind_wf hwf2 a
  have hroot3 : ∀ j, rootD (((uf.union a b).2.union b c).2.find a).2 j =
      rootD ((uf.union a b).2.union b c).2 j := by
    intro j
    rw [find_snd]
    exact innerFind_rootD hwf2 a j
  have hkeys3 : (((uf.union a b).2.union b c).2.find a).2.keys =
      ((uf.union a b).2.union b c).2.keys := by
    rw [find_snd]
    exact innerFind_keys a
  have hb3 : b ∈ (((uf.union a b).2.union b c).2.find a).2.keys := by
    rw [hkeys3, hkeys2, hkeys1]
    exact hb
  have hf2 : ((((uf.union a b).2.union b c).2.find a).2.find b).1 =
      some w2 := by
    rw [find_fst hwf3 hb3, hroot3 b, hrb2]
  have hwf4 : WF ((((uf.union a b).2.union b c).2.find a).2.find b).2 := by
    rw [find_snd]
    exact innerFind_wf hwf3 b
  have hroot4 : ∀ j,
      rootD ((((uf.union a b).2.union b c).2.find a).2.find b).2 j =
      rootD (((uf.union a b).2.union b c).2.find a).2 j := by
    intro j
    rw [find_snd]
    exact innerFind_rootD hwf3 b j
  have hc4 : c ∈ ((((uf.union a b).2.union b c).2.find a).2.find b).2.keys := by
    rw [find_snd, innerFind_keys b, hkeys3, hkeys2, hkeys1]
    exact hc
  have hf3 : (((((uf.union a b).2.union b c).2.find a).2.find b).2.find c).1 =
      some w2 := by
    rw [find_fst hwf4 hc4, hroot4 c, hroot3 c, hrc2]
  refine ⟨by rw [hf1] ; rfl, by rw [hf1, hf2], by rw [hf2, hf3]⟩

/-- C2 witness: the theorem applied to four fresh singletons with
`union 0 1; union 1 2` and the three finds. -/
theorem c2_union_transitive_witness :
    WF ufScenario0 ∧ 0 ∈ ufScenario0.keys ∧ 1 ∈ ufScenario0.keys ∧
      2 ∈ ufScenario0.keys ∧
      ((((ufScenario0.union 0 1).2.union 1 2).2.find 0).1.isSome = true ∧
        (((ufScenario0.union 0 1).2.union 1 2).2.find 0).1 =
          ((((ufScenario0.union 0 1).2.union 1 2).2.find 0).2.find 1).1 ∧
        ((((ufScenario0.union 0 1).2.union 1 2).2.find 0).2.find 1).1 =
          (((((ufScenario0.union 0 1).2.union 1 2).2.find 0).2.find 1).2.find
            2).1) := by
  have hwf : WF ufScenario0 := ⟨by decide, by decide, by decide⟩
  exact ⟨hwf, by decide, by decide, by decide,
    c2_union_transitive hwf (by decide) (by decide) (by decide)⟩

/-- C3: `find(id)` on an inserted identifier returns the root reached by
following parent references to a self-referencing entry, rewrites every
visited non-root entry (the collected walk list `L`) to point directly at
that root with the root's rank, and leaves every other entry untouched. -/
theorem c3_find_compresses {uf : UnionFind T} (hwf : WF uf) {idv : T}
    (hid : idv ∈ uf.keys) :
    ∃ r rr L, findChain uf.parents uf.parents.length idv = some (r, rr, L) ∧
      (uf.find idv).1 = some r ∧ RootedAt uf.parents idv r ∧
      lookupEntry uf.parents r = some (r, rr) ∧
      (∀ u ∈ L, lookupEntry (uf.find idv).2.parents u = some (r, rr)) ∧
      (∀ u, u ∉ L → lookupEntry (uf.find idv).2.parents u =
        lookupEntry uf.parents u) := by
  obtain ⟨r, rr, L, hfc, heq⟩ := innerFind_spec hwf hid
  obtain ⟨hroot, hiter, hfix, hmem⟩ := findChain_sound hfc
  refine ⟨r, rr, L, hfc, ?_, ⟨L.length, hiter, hfix⟩, hroot, ?_, ?_⟩
  · show (uf.innerFind idv).1.map Prod.fst = some r
    rw [heq]
    rfl
  · intro u hu
    show lookupEntry (uf.innerFind idv).2.parents u = some (r, rr)
    rw [heq]
    show lookupEntry (applyUpdates uf.parents r rr L) u = some (r, rr)
    rw [lookupEntry_applyUpdates, if_pos hu]
  · intro u hu
    show lookupEntry (uf.innerFind idv).2.parents u = lookupEntry uf.parents u
    rw [heq]
    show lookupEntry (applyUpdates uf.parents r rr L) u =
      lookupEntry uf.parents u
    rw [lookupEntry_applyUpdates, if_neg hu]

/-- C3 witness: `find 3` on the concrete state with the stale chain
`3 → 2 → 0` returns `0` and compresses the two visited entries. -/
theorem c3_find_compresses_witness :
    WF ufScenario ∧ 3 ∈ ufScenario.keys ∧
      (∃ r rr L,
        findChain ufScenario.parents ufScenario.parents.length 3 =
          some (r, rr, L) ∧
        (ufScenario.find 3).1 = some r ∧ RootedAt ufScenario.parents 3 r ∧
        lookupEntry ufScenario.parents r = some (r, rr) ∧
        (∀ u ∈ L, lookupEntry (ufScenario.find 3).2.parents u =
          some (r, rr)) ∧
        (∀ u, u ∉ L → lookupEntry (ufScenario.find 3).2.parents u =
          lookupEntry ufScenario.parents u)) := by
  have hwf : WF ufScenario := ⟨by decide, by decide, by decide⟩
  exact ⟨hwf, by decide, c3_find_compresses hwf (by decide)⟩

/-- C4: merging two distinct leaders leaves the winner self-referencing
with rank equal to the sum of the two previous leader ranks, and rewrites
the loser's entry to point directly at the winner with that combined rank. -/
theorem c4_union_ranks {uf : UnionFind T} (hwf : WF uf) {x y rx ry : T}
    (hrx : rootD uf x = some rx) (hry : rootD uf y = some ry) (hne : rx ≠ ry)
    {rkx rky : Nat}
    (hlkx : lookupEntry uf.parents rx = some (rx, rkx))
    (hlky : lookupEntry uf.parents ry = some (ry, rky)) :
    ∃ w lo, (uf.union x y).1 = some w ∧
      ((w = rx ∧ lo = ry) ∨ (w = ry ∧ lo = rx)) ∧
      lookupEntry (uf.union x y).2.parents w = some (w, rkx + rky) ∧
      lookupEntry (uf.union x y).2.parents lo = some (w, rkx + rky) := by
  rcases union_cases hwf x y with ⟨hx', _⟩ | ⟨_, hy', _⟩ |
    ⟨rx2, ry2, rkx2, rky2, hx, hy, hrx2, hry2, hlkx2, hlky2, hbr⟩
  · exact absurd (mem_of_rootD hrx) hx'
  · exact absurd (mem_of_rootD hry) hy'
  have e1 : rx2 = rx := Option.some.inj (hrx2.symm.trans hrx)
  have e2 : ry2 = ry := Option.some.inj (hry2.symm.trans hry)
  have e3 : rkx2 = rkx := by
    rw [e1] at hlkx2
    exact congrArg Prod.snd (Option.some.inj (hlkx2.symm.trans hlkx))
  have e4 : rky2 = rky := by
    rw [e2] at hlky2
    exact congrArg Prod.snd (Option.some.inj (hlky2.symm.trans hlky))
  rcases hbr with ⟨hsame, _⟩ | ⟨_, heq⟩
  · rw [e1, e2] at hsame
    exact absurd hsame hne
  rw [e1, e2, e3, e4] at heq
  have hwf1 : WF (uf.innerFind x).2 := innerFind_wf hwf x
  have hwf2 : WF ((uf.innerFind x).2.innerFind y).2 := innerFind_wf hwf1 y
  have hrxroot : parentD uf.parents rx = some rx := by
    rw [parentD, hlkx] ; rfl
  have hryroot : parentD uf.parents ry = some ry := by
    rw [parentD, hlky] ; rfl
  have hrxroot1 : parentD (uf.innerFind x).2.parents rx = some rx := by
    rw [parentD, innerFind_lookup_root hrxroot x, hlkx] ; rfl
  have hryroot1 : parentD (uf.innerFind x).2.parents ry = some ry := by
    rw [parentD, innerFind_lookup_root hryroot x, hlky] ; rfl
  have hlk2x : lookupEntry ((uf.innerFind x).2.innerFind y).2.parents rx =
      some (rx, rkx) := by
    rw [innerFind_lookup_root hrxroot1 y, innerFind_lookup_root hrxroot x]
    exact hlkx
  have hlk2y : lookupEntry ((uf.innerFind x).2.innerFind y).2.parents ry =
      some (ry, rky) := by
    rw [innerFind_lookup_root hryroot1 y, innerFind_lookup_root hryroot x]
    exact hlky
  by_cases hcmp : rky > rkx
  · simp only [if_pos hcmp] at heq
    obtain ⟨_, _, _, hlook⟩ :=
      merge_state hwf2 (rkx + rky) hlk2y hlk2x (Ne.symm hne)
    refine ⟨ry, rx, by rw [heq], Or.inr ⟨rfl, rfl⟩, ?_, ?_⟩
    · rw [heq]
      show lookupEntry
        (setEntry (setEntry ((uf.innerFind x).2.innerFind y).2.parents rx
          (ry, rkx + rky)) ry (ry, rkx + rky)) ry = some (ry, rkx + rky)
      rw [hlook ry, if_pos rfl]
    · rw [heq]
      show lookupEntry
        (setEntry (setEntry ((uf.innerFind x).2.innerFind y).2.parents rx
          (ry, rkx + rky)) ry (ry, rkx + rky)) rx = some (ry, rkx + rky)
      rw [hlook rx, if_neg hne, if_pos rfl]
  · simp only [if_neg hcmp] at heq
    obtain ⟨_, _, _, hlook⟩ :=
      merge_state hwf2 (rkx + rky) hlk2x hlk2y hne
    refine ⟨rx, ry, by rw [heq], Or.inl ⟨rfl, rfl⟩, ?_, ?_⟩
    · rw [heq]
      show lookupEntry
        (setEntry (setEntry ((uf.innerFind x).2.innerFind y).2.parents ry
          (rx, rkx + rky)) rx (rx, rkx + rky)) rx = some (rx, rkx + rky)
      rw [hlook rx, if_pos rfl]
    · rw [heq]
      show lookupEntry
        (setEntry (setEntry ((uf.innerFind x).2.innerFind y).2.parents ry
          (rx, rkx + rky)) rx (rx, rkx + rky)) ry = some (rx, rkx + rky)
      rw [hlook ry, if_neg (Ne.symm hne), if_pos rfl]

/-- C4 witness: merging the rank-2 leader `0` with the singleton leader `2`
leaves `0` self-referencing with rank 3 and points `2` at `0` with rank 3. -/
theorem c4_union_ranks_witness :
    WF ufScenario1 ∧ rootD ufScenario1 0 = some 0 ∧
      rootD ufScenario1 2 = some 2 ∧ (0 : Nat) ≠ 2 ∧
      lookupEntry ufScenario1.parents 0 = some (0, 2) ∧
      lookupEntry ufScenario1.parents 2 = some (2, 1) ∧
      (∃ w lo, (ufScenario1.union 0 2).1 = some w ∧
        ((w = 0 ∧ lo = 2) ∨ (w = 2 ∧ lo = 0)) ∧
        lookupEntry (ufScenario1.union 0 2).2.parents w = some (w, 2 + 1) ∧
        lookupEntry (ufScenario1.union 0 2).2.parents lo =
          some (w, 2 + 1)) := by
  have hwf : WF ufScenario1 := ⟨by decide, by decide, by decide⟩
  refine ⟨hwf, by decide, by decide, by decide, by decide, by decide, ?_⟩
  exact c4_union_ranks hwf (by decide) (by decide) (by decide) (by decide)
    (by decide)

/-- C8: in every reachable state, following parent references from any
inserted identifier terminates at a self-referencing root entry. -/
theorem c8_chains_reach_roots {uf : UnionFind T} (h : Reachable uf) :
    ∀ k ∈ uf.keys, ∃ n r, iterParent uf.parents n k = some r ∧
      parentD uf.parents r = some r := by
  intro k hk
  obtain ⟨r, n, hn, hr⟩ := wf_rootedAt (reachable_wf h) hk
  exact ⟨n, r, hn, hr⟩

/-- C8 witness: the theorem at the concrete reachable state. -/
theorem c8_chains_reach_roots_witness :
    Reachable ufScenario ∧
      ∀ k ∈ ufScenario.keys, ∃ n r,
        iterParent ufScenario.parents n k = some r ∧
        parentD ufScenario.parents r = some r := by
  have hre : Reachable ufScenario :=
    Reachable.unionStep 0 2 (Reachable.unionStep 2 3 (Reachable.unionStep 0 1
      (Reachable.insertStep 3 (Reachable.insertStep 2 (Reachable.insertStep 1
        (Reachable.insertStep 0 Reachable.new))))))
  exact ⟨hre, c8_chains_reach_roots hre⟩

/-- C9: in every reachable state, ranks are non-decreasing along every
parent chain, and each root's rank equals the number of identifiers in its
group. -/
theorem c9_rank_invariants {uf : UnionFind T} (h : Reachable uf) :
    (∀ k p rk, lookupEntry uf.parents k = some (p, rk) →
      ∀ n v, iterParent uf.parents n k = some v →
        ∀ q rv, lookupEntry uf.parents v = some (q, rv) → rk ≤ rv) ∧
      (∀ r rk, lookupEntry uf.parents r = some (r, rk) →
        rk = groupSize uf r) := by
  have hinv := reachable_inv h
  constructor
  · intro k p rk hk n v hit q rv hv
    exact rank_le_iter hinv.rankMono hit hk hv
  · intro r rk hr
    exact sizeInv_lookup hinv.sizeInv hr

/-- C9 witness: the theorem at the concrete reachable state, where the
leader `0` has rank 4 and its group has the four members `0, 1, 2, 3`. -/
theorem c9_rank_invariants_witness :
    Reachable ufScenario ∧
      ((∀ k p rk, lookupEntry ufScenario.parents k = some (p, rk) →
        ∀ n v, iterParent ufScenario.parents n k = some v →
          ∀ q rv, lookupEntry ufScenario.parents v = some (q, rv) →
            rk ≤ rv) ∧
      (∀ r rk, lookupEntry ufScenario.parents r = some (r, rk) →
        rk = groupSize ufScenario r)) := by
  have hre : Reachable ufScenario :=
    Reachable.unionStep 0 2 (Reachable.unionStep 2 3 (Reachable.unionStep 0 1
      (Reachable.insertStep 3 (Reachable.insertStep 2 (Reachable.insertStep 1
        (Reachable.insertStep 0 Reachable.new))))))
  exact ⟨hre, c9_rank_invariants hre⟩

/-- C10: in every reachable state, every stored parent reference is itself a
present key, the walk of `inner_find` only ever looks up present keys (it
succeeds within `size` steps for every key), and `union` on two present keys
never reaches its impossible branches (it returns a leader). -/
theorem c10_lookups_safe {uf : UnionFind T} (h : Reachable uf) :
    (∀ k p rk, lookupEntry uf.parents k = some (p, rk) → p ∈ uf.keys) ∧
      (∀ k ∈ uf.keys,
        (findChain uf.parents uf.parents.length k).isSome = true) ∧
      (∀ x y, x ∈ uf.keys → y ∈ uf.keys →
        (uf.union x y).1.isSome = true) := by
  have hwf := reachable_wf h
  refine ⟨?_, hwf.rooted, ?_⟩
  · intro k p rk hk
    exact hwf.closed (k, (p, rk)) (mem_of_lookupEntry hk)
  · intro x y hx hy
    obtain ⟨rx, ry, w, _, _, hfst, _, _⟩ := union_rootD_mapping hwf hx hy
    rw [hfst]
    rfl

/-- C10 witness: the theorem at the concrete reachable state. -/
theorem c10_lookups_safe_witness :
    Reachable ufScenario ∧
      ((∀ k p rk, lookupEntry ufScenario.parents k = some (p, rk) →
          p ∈ ufScenario.keys) ∧
        (∀ k ∈ ufScenario.keys,
          (findChain ufScenario.parents ufScenario.parents.length k).isSome =
            true) ∧
        (∀ x y, x ∈ ufScenario.keys → y ∈ ufScenario.keys →
          (ufScenario.union x y).1.isSome = true)) := by
  have hre : Reachable ufScenario :=
    Reachable.unionStep 0 2 (Reachable.unionStep 2 3 (Reachable.unionStep 0 1
      (Reachable.insertStep 3 (Reachable.insertStep 2 (Reachable.insertStep 1
        (Reachable.insertStep 0 Reachable.new))))))
  exact ⟨hre, c10_lookups_safe hre⟩

end RsUnionFind
